import Mathlib

/-!
# Verification of the lambda-expression tokenizer, associativity resolver and
# parse-tree builder (`A1.py`)

This file gives a shallow embedding of the three core components of the
source program and proves the stated properties about them.

* Strings are modelled as `List Char`; a token (a Python string) is a
  `List Char` as well (`Tok`), and a token sequence is `Toks`.
* The recursive tokenizer `parse_tokens_rec` is embedded as the
  fuel-indexed structural function `parseRecF`; every recursive call of the
  source consumes at least one character of the (stripped) input, so the
  wrapper `parse_tokens` runs it with fuel `length + 1`, which can never be
  exhausted.  The source's result type `Union[List[str], bool]` together
  with its printed diagnostics is modelled as
  `Except (Option Diag) Toks`: `.ok ts` is a returned token list,
  `.error (some d)` is `False` returned right after printing the diagnostic
  `d`, and `.error none` is `False` returned with no diagnostic printed
  (the `if not nested_tokens` branches turn a successful empty nested
  result into exactly that silent failure).
* `add_associativity` is embedded with the same fuel technique
  (the `left` branch recurses on `dropLast`, which is not structural).
* The parse-tree builder `build_parse_tree_rec` is embedded as
  `build_parse_tree_rec` over an inductive `Node`.

Python-specific behaviour kept faithfully:

* `str.strip()` removes *leading and trailing* whitespace (the source's
  comment claims trailing only); the position counter `pos` is not advanced
  for the removed leading whitespace.
* `split(" ")` produces empty strings between consecutive separators
  (`splitSpaces` below).
* an `Optional[str]` association mode is truthy exactly when it is a
  non-empty string (`truthy` below).
* In `build_parse_tree_rec`, a `\` token with no following token makes
  CPython raise `IndexError`; the embedding returns no further children at
  that (unreachable for validated input) point.
-/

/-! ## Character classes (`alphabet_chars`, `numeric_chars`, `var_chars`) -/

/-- `alphabet_chars`: ASCII letters. -/
def isAlphaCh (c : Char) : Bool :=
  ('a' ≤ c && c ≤ 'z') || ('A' ≤ c && c ≤ 'Z')

/-- `numeric_chars`: ASCII digits. -/
def isDigitCh (c : Char) : Bool :=
  '0' ≤ c && c ≤ '9'

/-- `var_chars = alphabet_chars + numeric_chars`. -/
def isVarCh (c : Char) : Bool :=
  isAlphaCh c || isDigitCh c

/-- The ASCII whitespace characters removed by Python `str.strip()`. -/
def isWSCh (c : Char) : Bool :=
  c = ' ' || c = '\t' || c = '\n' || c = '\r' || c = Char.ofNat 11 || c = Char.ofNat 12

/-- Removal of trailing whitespace. -/
def rstrip : List Char → List Char
  | [] => []
  | a :: l =>
    match rstrip l with
    | [] => if isWSCh a then [] else [a]
    | b :: r => a :: b :: r

/-- Python `str.strip()`: leading and trailing whitespace removed. -/
def pyStrip (l : List Char) : List Char :=
  rstrip (l.dropWhile isWSCh)

/-! ## Tokens and results -/

/-- A token: one of the Python strings `"\\"`, `"("`, `")"` or an
identifier chunk, modelled as its character list. -/
abbrev Tok := List Char

/-- A token sequence. -/
abbrev Toks := List Tok

/-- `tk s` is the token whose characters are those of the string `s`. -/
def tk (s : String) : Tok := s.toList

/-- A diagnostic printed by the source right before it returns `False`:
the message text and the 1-based position it reports. -/
structure Diag where
  msg : String
  pos : Nat
deriving DecidableEq, Repr

/-- Result of the tokenizer: a token list, or `False` together with the
diagnostic printed at the point of failure (`none` when the source prints
nothing, i.e. when a successful empty nested result is taken for `False`). -/
abbrev PRes := Except (Option Diag) Toks

instance : DecidableEq PRes := fun x y =>
  match x, y with
  | .ok a, .ok b => if h : a = b then .isTrue (by rw [h]) else .isFalse (by simp [h])
  | .error a, .error b => if h : a = b then .isTrue (by rw [h]) else .isFalse (by simp [h])
  | .ok _, .error _ => .isFalse (by simp)
  | .error _, .ok _ => .isFalse (by simp)

/-- Truthiness of the Python `Optional[str]` association mode:
`None` and `""` are falsy, every other string is truthy. -/
def truthy : Option String → Bool
  | none => false
  | some m => m ≠ ""

/-! ## The associativity resolver (`add_associativity`) -/

/-- Fuel-indexed body of `add_associativity`; the `left` branch recurses on
`dropLast` and the `right` branch on the tail, each shorter by one, so fuel
`s.length` suffices. -/
def addAssocF : Nat → Toks → String → Toks
  | 0, s, _ => s
  | f + 1, s, ty =>
    if s.length ≤ 1 then s
    else if ty = "left" then
      [tk "("] ++ addAssocF f s.dropLast ty ++ [s.getLastD [], tk ")"]
    else if ty = "right" then
      match s with
      | [] => s
      | h :: t => [tk "("] ++ [h] ++ addAssocF f t ty ++ [tk ")"]
    else s

/-- `add_associativity(s_, association_type)` of the source. -/
def add_associativity (s : Toks) (ty : String) : Toks :=
  addAssocF s.length s ty

/-- Whether `add_associativity` prints its
`"Warning: unknown association type ..."` line: the `else` branch is reached
exactly when the list has at least two tokens and the type is neither
`"left"` nor `"right"`. -/
def assoc_warns (s : Toks) (ty : String) : Bool :=
  2 ≤ s.length && !(ty = "left" : Bool) && !(ty = "right" : Bool)

/-! ## Scanning helpers of `parse_tokens_rec` -/

/-- The bracket-matching loop of case 3 (`while end_index < len(s) and
bracket_count != 0`), run on the characters after the opening `(` with the
current count: returns the number of characters consumed and the final
count.  The count starts at 1 and the loop stops as soon as it reaches 0,
so it never goes below 0 and `Nat` is exact. -/
def pscan (l : List Char) : Nat → Nat × Nat
  | 0 => (0, 0)
  | c + 1 =>
    match l with
    | [] => (0, c + 1)
    | x :: xs =>
      let c' := if x = '(' then c + 2 else if x = ')' then c else c + 1
      let r := pscan xs c'
      (r.1 + 1, r.2)

theorem pscan_zero (l : List Char) : pscan l 0 = (0, 0) := by cases l <;> rfl

theorem pscan_cons_succ (x : Char) (xs : List Char) (c : Nat) :
    pscan (x :: xs) (c + 1)
      = ((pscan xs (if x = '(' then c + 2 else if x = ')' then c else c + 1)).1 + 1,
         (pscan xs (if x = '(' then c + 2 else if x = ')' then c else c + 1)).2) := rfl

theorem pscan_nil_succ (c : Nat) : pscan [] (c + 1) = (0, c + 1) := rfl

/-- The token-level bracket scan of subcase 2.1 (`bracket_index` loop), run
on the tokens after the leading `(` with current count: returns how many
further tokens are passed before the count reaches 0 (the loop breaks
*before* moving past the closing token), or the number of remaining tokens
if it never does. -/
def tfind : Toks → Nat → Nat
  | [], _ => 0
  | t :: r, c =>
    let c' := if t = tk "(" then c + 1 else if t = tk ")" then c - 1 else c
    if c' = 0 then 0 else 1 + tfind r c'

/-- Python `run.split(" ")`: split at every single space, keeping empty
chunks between consecutive spaces. -/
def splitSpaces : List Char → Toks
  | [] => [[]]
  | c :: r =>
    if c = ' ' then [] :: splitSpaces r
    else
      match splitSpaces r with
      | [] => [[c]]
      | w :: ws => (c :: w) :: ws

/-! ## The tokenizer (`parse_tokens_rec`, `parse_tokens`) -/

/-- The body of one call of `parse_tokens_rec(s_, original, pos,
association_type)`, with `rec` standing for the recursive calls. -/
def parseStep (rec : List Char → Nat → Option String → PRes)
    (s_ : List Char) (pos : Nat) (a : Option String) : PRes :=
  let s := pyStrip s_
  match s with
  | [] => .ok []
  | c0 :: srest =>
    if c0 = ' ' then
      -- case 1 (unreachable after the strip, kept from the source)
      rec srest pos.succ a
    else if c0 = '\\' then
      -- case 2: variables
      let nm := srest.takeWhile isVarCh
      let endIdx := 1 + nm.length
      match nm with
      | [] => .error (some ⟨"No valid variable name found.", pos + 2⟩)
      | nh :: _ =>
        if ¬ isAlphaCh nh then
          .error (some ⟨"Variable must start with a character.", pos + 2⟩)
        else if s.length ≤ endIdx + 1 then
          .error (some ⟨"No expression found after variable.", pos + 2⟩)
        else
          let rest1 := s.drop endIdx
          let spaces := (rest1.takeWhile (fun c => c = ' ')).length
          let endIdx2 := endIdx + spaces
          let rest2 := rest1.drop spaces
          -- the source tracks a `dot_expr` flag across this region; the two
          -- values of the flag are written out as the two match arms here
          match rest2.head? with
          | some '.' =>
            if spaces ≠ 0 then
              .error (some ⟨"No spaces allowed between variable and dot.", pos + endIdx2⟩)
            else
              match rec (rest2.drop 1) (pos + (endIdx2 + 1)) a with
              | .error e => .error e
              | .ok [] => .error none
              | .ok (nt0 :: ntr) =>
                -- `add_extra` is false exactly when the body starts with a
                -- bracket whose match spans the whole body
                if nt0 = tk "(" ∧ 1 + tfind ntr 1 = (nt0 :: ntr).length - 1 then
                  .ok ([tk "\\", nm] ++ (nt0 :: ntr))
                else
                  .ok ([tk "\\", nm, tk "("] ++ (nt0 :: ntr) ++ [tk ")"])
          | _ =>
            match rec rest2 (pos + endIdx2) a with
            | .error e => .error e
            | .ok [] => .error none
            | .ok (nt0 :: ntr) => .ok ([tk "\\", nm] ++ (nt0 :: ntr))
    else if c0 = '(' then
      -- case 3: brackets
      let sc := pscan srest 1
      let endIdx := 1 + sc.1
      if sc.2 ≠ 0 then
        let comp :=
          if endIdx < s.length - 1 then
            String.singleton ((s.drop (endIdx + 1)).headD ' ') ++ "."
          else "EOL."
        .error (some ⟨"Expected closing parenthesis, found " ++ comp, pos + endIdx⟩)
      else if endIdx ≤ 2 then
        .error (some ⟨"Missing tokens between brackets.", pos + 1⟩)
      else
        match rec (srest.take (endIdx - 2)) (pos + 1) a with
        | .error e => .error e
        | .ok [] => .error none
        | .ok (nt0 :: ntr) =>
          let nested := nt0 :: ntr
          let extraWrap : Bool := endIdx + 1 < s.length && truthy a
          let afterRes : PRes :=
            if endIdx < s.length then rec (s.drop endIdx) (pos + endIdx) a
            else .ok []
          match afterRes with
          | .error e => .error e
          | .ok additional =>
            .ok ((if extraWrap then [tk "("] else []) ++ [tk "("] ++ nested
                  ++ [tk ")"] ++ additional ++ (if extraWrap then [tk ")"] else []))
    else if isVarCh c0 then
      -- case 4: application chains
      if ¬ isAlphaCh c0 then
        .error (some ⟨"Name must start with a character.", pos + 1⟩)
      else
        let run := c0 :: srest.takeWhile (fun c => isVarCh c || c = ' ')
        let endIdx := run.length
        let charToks := splitSpaces (pyStrip run)
        let charToks' := if truthy a then add_associativity charToks (a.getD "") else charToks
        match rec (s.drop endIdx) (pos + endIdx) a with
        | .error e => .error e
        | .ok additional => .ok (charToks' ++ additional)
    else
      -- case 5: anything else
      .error (some ⟨"Unexpected token '" ++ String.singleton c0 ++ "'", pos + 1⟩)

/-- Fuel-indexed embedding of `parse_tokens_rec`.  Each recursive call of
the source is on a strict suffix (resp. interior slice) of the stripped
string, hence at least one character shorter than `s_`, so fuel
`s_.length + 1` is never exhausted. -/
def parseRecF : Nat → List Char → Nat → Option String → PRes
  | 0, _, _, _ => .error none
  | f + 1, s_, pos, a => parseStep (parseRecF f) s_ pos a

/-- Controlled one-step unfolding of the fuel recursion. -/
theorem parseRecF_succ (f : Nat) (s_ : List Char) (pos : Nat) (a : Option String) :
    parseRecF (f + 1) s_ pos a = parseStep (parseRecF f) s_ pos a := rfl

/-- `parse_tokens(s_, association_type)` of the source. -/
def parse_tokens (s : List Char) (a : Option String) : PRes :=
  parseRecF (s.length + 1) s 0 a

example : parse_tokens (tk "\\x.\\y (x y b c)") none =
    .ok [tk "\\", tk "x", tk "(", tk "\\", tk "y", tk "(",
         tk "x", tk "y", tk "b", tk "c", tk ")", tk ")"] := by decide

example : parse_tokens (tk "\\x y") none = .ok [tk "\\", tk "x", tk "y"] := by decide

example : parse_tokens (tk "(x)") none = .ok [tk "(", tk "x", tk ")"] := by decide

example : parse_tokens (tk "()") none =
    .error (some ⟨"Missing tokens between brackets.", 1⟩) := by decide

example : parse_tokens (tk "( )") none = .error none := by decide

example : parse_tokens (tk " *") none =
    .error (some ⟨"Unexpected token '*'", 1⟩) := by decide

example : parse_tokens (tk "(a") none =
    .error (some ⟨"Expected closing parenthesis, found EOL.", 2⟩) := by decide

example : parse_tokens (tk "(a)(b)") (some "asdf") =
    .ok [tk "(", tk "(", tk "a", tk ")", tk "(", tk "b", tk ")", tk ")"] := by decide

example : parse_tokens (tk "(a)(b)") none =
    .ok [tk "(", tk "a", tk ")", tk "(", tk "b", tk ")"] := by decide

example : add_associativity [tk "a", tk "b", tk "c"] "left" =
    [tk "(", tk "(", tk "a", tk "b", tk ")", tk "c", tk ")"] := by decide

example : add_associativity [tk "a", tk "b", tk "c"] "right" =
    [tk "(", tk "a", tk "(", tk "b", tk "c", tk ")", tk ")"] := by decide

/-! ## Mode classification

`parse_tokens_rec` looks at the association mode only through its Python
truthiness and through the string comparisons with `"left"` and `"right"`
inside `add_associativity`, so its behaviour depends only on which of four
classes the mode falls into. -/

inductive ModeKind where
  | noneLike
  | leftMode
  | rightMode
  | otherMode
deriving DecidableEq

/-- The class of an association mode: `None` and `""` are falsy and behave
alike; `"left"` and `"right"` are the recognized modes; everything else is
truthy but unrecognized. -/
def mkind : Option String → ModeKind
  | none => .noneLike
  | some m =>
    if m = "" then .noneLike
    else if m = "left" then .leftMode
    else if m = "right" then .rightMode
    else .otherMode

/-! ## The parse-tree builder (`build_parse_tree_rec`) -/

/-- A node of the parse tree: `elem` is the Python `List[str]` label list,
`children` the ordered child nodes. -/
inductive Node where
  | mk (elem : Toks) (children : List Node)

/-- The label list of a node. -/
def Node.elem : Node → Toks
  | .mk e _ => e

/-- The ordered children of a node. -/
def Node.children : Node → List Node
  | .mk _ c => c

/-- The inner `while` of the builder's `(` branch: consume tokens after an
opening `(` with the running `paren_count`, returning the strictly interior
tokens (the token where the count reaches 0 is consumed but not collected)
and the tokens after the matching `)`. -/
def spanB : Toks → Nat → Toks × Toks
  | [], _ => ([], [])
  | t :: r, c =>
    let c' := if t = tk "(" then c + 1 else if t = tk ")" then c - 1 else c
    if c' = 0 then ([], r)
    else
      let p := spanB r c'
      (t :: p.1, p.2)

/-- The child-building scan of `build_parse_tree_rec`, fuel-indexed (the
bracket branch recurses on the interior and on the continuation, both
shorter than the current list, so fuel `tokens.length` suffices).  In the
`\` branch CPython indexes `tokens[i]` past the end when no token follows
the `\`; that (for validated inputs unreachable) crash is modelled by
producing no further children. -/
def buildKidsF : Nat → Toks → List Node
  | 0, _ => []
  | _ + 1, [] => []
  | f + 1, t :: r =>
    if t = tk "(" then
      let p := spanB r 1
      Node.mk [tk "("] [] ::
        Node.mk [List.intercalate (tk "_") p.1] (buildKidsF f p.1) ::
          Node.mk [tk ")"] [] :: buildKidsF f p.2
    else if t = tk "\\" then
      match r with
      | v :: r' => Node.mk [tk "\\", v] [] :: buildKidsF f r'
      | [] => []
    else
      Node.mk [t] [] :: buildKidsF f r

/-- `build_parse_tree_rec(tokens)` called with `node = None`: the initial
node is labelled with the `"_"`-joined token list and is given the children
built by the scan. -/
def build_parse_tree_rec (tokens : Toks) : Node :=
  Node.mk [List.intercalate (tk "_") tokens] (buildKidsF tokens.length tokens)

example :
    (build_parse_tree_rec [tk "\\", tk "x", tk "(", tk "y", tk ")"]).children =
      [Node.mk [tk "\\", tk "x"] [],
       Node.mk [tk "("] [],
       Node.mk [tk "y"] [Node.mk [tk "y"] []],
       Node.mk [tk ")"] []] := by rfl

/-! ## Token-level parenthesis balance -/

/-- Depth scan over a token sequence: `none` when a `")"` token appears at
depth 0, otherwise the final depth. -/
def balRun : Toks → Nat → Option Nat
  | [], d => some d
  | t :: r, d =>
    if t = tk "(" then balRun r (d + 1)
    else if t = tk ")" then
      match d with
      | 0 => none
      | d' + 1 => balRun r d'
    else balRun r d

/-- A token sequence has balanced parenthesis tokens. -/
def balancedToks (ts : Toks) : Bool :=
  balRun ts 0 = some 0

/-- A token that is neither `"("` nor `")"`. -/
def nonParenTok (t : Tok) : Bool :=
  !(t = tk "(" : Bool) && !(t = tk ")" : Bool)

example : balancedToks (add_associativity [tk "("] "left") = false := by decide

/-! ## Equations for `add_associativity` -/

theorem addAssocF_cons2 (f : Nat) (a b : Tok) (r : Toks) (ty : String) :
    addAssocF (f + 1) (a :: b :: r) ty =
      if ty = "left" then
        [tk "("] ++ addAssocF f (a :: b :: r).dropLast ty ++ [(a :: b :: r).getLastD [], tk ")"]
      else if ty = "right" then
        [tk "("] ++ [a] ++ addAssocF f (b :: r) ty ++ [tk ")"]
      else a :: b :: r := by
  have hgt : ¬ (a :: b :: r).length ≤ 1 := by simp
  simp only [addAssocF, if_neg hgt]

theorem addAssocF_eq (f : Nat) :
    ∀ s ty, s.length ≤ f → addAssocF f s ty = add_associativity s ty := by
  induction f with
  | zero =>
    intro s ty h
    have hs : s = [] := List.length_eq_zero.mp (Nat.le_zero.mp h)
    subst hs; rfl
  | succ f ih =>
    intro s ty h
    match s with
    | [] => rfl
    | [a] => rfl
    | a :: b :: r =>
      have hR : add_associativity (a :: b :: r) ty
          = addAssocF (r.length + 1 + 1) (a :: b :: r) ty := rfl
      rw [hR, addAssocF_cons2 f, addAssocF_cons2 (r.length + 1)]
      have hdl : (a :: b :: r).dropLast.length = r.length + 1 := by
        simp [List.length_dropLast]
      have hlen : r.length + 2 ≤ f + 1 := by simpa using h
      by_cases hl : ty = "left"
      · rw [if_pos hl, if_pos hl]
        have e1 : addAssocF f (a :: b :: r).dropLast ty
            = add_associativity (a :: b :: r).dropLast ty := by
          apply ih
          rw [hdl]; omega
        have e2 : addAssocF (r.length + 1) (a :: b :: r).dropLast ty
            = add_associativity (a :: b :: r).dropLast ty := by
          show _ = addAssocF (a :: b :: r).dropLast.length (a :: b :: r).dropLast ty
          rw [hdl]
        rw [e1, e2]
      · by_cases hr : ty = "right"
        · rw [if_neg hl, if_pos hr, if_neg hl, if_pos hr]
          have e1 : addAssocF f (b :: r) ty = add_associativity (b :: r) ty := by
            apply ih
            simp; omega
          have e2 : addAssocF (r.length + 1) (b :: r) ty
              = add_associativity (b :: r) ty := rfl
          rw [e1, e2]
        · rw [if_neg hl, if_neg hr, if_neg hl, if_neg hr]

theorem add_assoc_short (s : Toks) (ty : String) (h : s.length ≤ 1) :
    add_associativity s ty = s := by
  match s with
  | [] => rfl
  | [a] => rfl

theorem add_assoc_left_cons (a b : Tok) (r : Toks) :
    add_associativity (a :: b :: r) "left" =
      [tk "("] ++ add_associativity (a :: b :: r).dropLast "left"
        ++ [(a :: b :: r).getLastD [], tk ")"] := by
  have hdl : (a :: b :: r).dropLast.length = r.length + 1 := by
    simp [List.length_dropLast]
  show addAssocF (r.length + 1 + 1) (a :: b :: r) "left" = _
  rw [addAssocF_cons2, if_pos rfl, addAssocF_eq (r.length + 1) _ _ (le_of_eq hdl)]

theorem add_assoc_right_cons (a b : Tok) (r : Toks) :
    add_associativity (a :: b :: r) "right" =
      [tk "("] ++ [a] ++ add_associativity (b :: r) "right" ++ [tk ")"] := by
  show addAssocF (r.length + 1 + 1) (a :: b :: r) "right" = _
  rw [addAssocF_cons2, if_neg (by decide), if_pos rfl]
  rfl

theorem add_assoc_other (s : Toks) (ty : String)
    (hl : ty ≠ "left") (hr : ty ≠ "right") :
    add_associativity s ty = s := by
  match s with
  | [] => rfl
  | [a] => rfl
  | a :: b :: r =>
    show addAssocF (r.length + 1 + 1) (a :: b :: r) ty = _
    rw [addAssocF_cons2, if_neg hl, if_neg hr]

/-! ## Balance and multiset preservation of `add_associativity` -/

theorem close_ne_open : ((tk ")" : Tok) = tk "(") = False := by
  simp [tk]

theorem nonParen_iff (t : Tok) :
    nonParenTok t = true ↔ t ≠ tk "(" ∧ t ≠ tk ")" := by
  simp [nonParenTok]

theorem balRun_cons_open (r : Toks) (d : Nat) :
    balRun (tk "(" :: r) d = balRun r (d + 1) := by
  simp [balRun]

theorem balRun_cons_close_zero (r : Toks) :
    balRun (tk ")" :: r) 0 = none := by
  simp [balRun, close_ne_open]

theorem balRun_cons_close_succ (r : Toks) (d : Nat) :
    balRun (tk ")" :: r) (d + 1) = balRun r d := by
  simp [balRun, close_ne_open]

theorem balRun_cons_other (t : Tok) (r : Toks) (d : Nat)
    (h1 : t ≠ tk "(") (h2 : t ≠ tk ")") :
    balRun (t :: r) d = balRun r d := by
  simp [balRun, h1, h2]

theorem balRun_append (A B : Toks) :
    ∀ d, balRun (A ++ B) d = (balRun A d).bind fun e => balRun B e := by
  induction A with
  | nil => intro d; rfl
  | cons t r ih =>
    intro d
    by_cases h1 : t = tk "("
    · subst h1
      rw [List.cons_append, balRun_cons_open, balRun_cons_open, ih]
    · by_cases h2 : t = tk ")"
      · subst h2
        cases d with
        | zero =>
          rw [List.cons_append, balRun_cons_close_zero, balRun_cons_close_zero]
          rfl
        | succ d' =>
          rw [List.cons_append, balRun_cons_close_succ, balRun_cons_close_succ, ih]
      · rw [List.cons_append, balRun_cons_other t _ _ h1 h2,
          balRun_cons_other t _ _ h1 h2, ih]

theorem balRun_nonParen (s : Toks) (h : ∀ t ∈ s, nonParenTok t) :
    ∀ d, balRun s d = some d := by
  induction s with
  | nil => intro d; rfl
  | cons t r ih =>
    intro d
    have ht := (nonParen_iff t).mp (h t (by simp))
    rw [balRun_cons_other t r d ht.1 ht.2]
    exact ih (fun u hu => h u (by simp [hu])) d

theorem getLastD_cons_mem : ∀ (s : Toks) (a d : Tok), (a :: s).getLastD d ∈ a :: s := by
  intro s
  induction s with
  | nil =>
    intro a d
    rw [List.getLastD_cons, List.getLastD_nil]
    simp
  | cons c r ih =>
    intro a d
    rw [List.getLastD_cons]
    exact List.mem_cons.mpr (Or.inr (ih c a))

theorem dropLast_getLastD_toks :
    ∀ (s : Toks) (a d : Tok), (a :: s).dropLast ++ [(a :: s).getLastD d] = a :: s := by
  intro s
  induction s with
  | nil => intro a d; rfl
  | cons c r ih =>
    intro a d
    have h1 : (a :: c :: r).dropLast = a :: (c :: r).dropLast := rfl
    have h2 : (a :: c :: r).getLastD d = (c :: r).getLastD a := by
      cases r <;> rfl
    rw [h1, h2]
    have := ih c a
    simpa using this

theorem assoc_balance_core (n : Nat) :
    ∀ (s : Toks) (m : String), s.length ≤ n → (m = "left" ∨ m = "right") →
      (∀ t ∈ s, nonParenTok t) →
      (∀ d, balRun (add_associativity s m) d = some d) ∧
        (add_associativity s m).filter nonParenTok = s := by
  induction n with
  | zero =>
    intro s m hlen _ _
    have hs : s = [] := List.length_eq_zero.mp (Nat.le_zero.mp hlen)
    subst hs
    exact ⟨fun d => rfl, rfl⟩
  | succ n ih =>
    intro s m hlen hm hnp
    match s with
    | [] => exact ⟨fun d => rfl, rfl⟩
    | [a] =>
      rw [add_assoc_short [a] m (by simp)]
      refine ⟨balRun_nonParen [a] hnp, ?_⟩
      simp [List.filter, hnp a (by simp)]
    | a :: b :: r =>
      have hoParen : nonParenTok (tk "(") = false := by decide
      have hcParen : nonParenTok (tk ")") = false := by decide
      rcases hm with hm | hm
      · subst hm
        rw [add_assoc_left_cons]
        have hsplit : (a :: b :: r).dropLast ++ [(a :: b :: r).getLastD []] = a :: b :: r :=
          dropLast_getLastD_toks (b :: r) a []
        generalize hL : (a :: b :: r).getLastD [] = L at hsplit
        have hdlmem : ∀ t ∈ (a :: b :: r).dropLast, nonParenTok t := by
          intro t ht
          refine hnp t ?_
          rw [← hsplit]
          exact List.mem_append.mpr (Or.inl ht)
        have hdllen : (a :: b :: r).dropLast.length ≤ n := by
          simp only [List.length_dropLast, List.length_cons] at *
          omega
        obtain ⟨ihb, ihf⟩ := ih (a :: b :: r).dropLast "left" hdllen (Or.inl rfl) hdlmem
        have hlastnp : nonParenTok L := by
          rw [← hL]
          exact hnp ((a :: b :: r).getLastD []) (getLastD_cons_mem (b :: r) a [])
        have hl1 := (nonParen_iff L).mp hlastnp
        constructor
        · intro d
          rw [balRun_append, balRun_append, balRun_cons_open]
          show ((balRun [] (d + 1)).bind fun e =>
              balRun (add_associativity (a :: b :: r).dropLast "left") e).bind
              (fun e => balRun [L, tk ")"] e) = some d
          rw [show balRun ([] : Toks) (d + 1) = some (d + 1) from rfl]
          rw [Option.some_bind, ihb, Option.some_bind,
            balRun_cons_other L _ _ hl1.1 hl1.2, balRun_cons_close_succ]
          rfl
        · rw [List.filter_append, List.filter_append]
          rw [show List.filter nonParenTok [tk "("] = [] by simp [hoParen]]
          rw [show List.filter nonParenTok [L, tk ")"] = [L] by
            simp [List.filter, hlastnp, hcParen]]
          rw [ihf, List.nil_append, hsplit]
      · subst hm
        rw [add_assoc_right_cons]
        have htlmem : ∀ t ∈ b :: r, nonParenTok t := fun t ht => hnp t (by simp [ht])
        have htllen : (b :: r).length ≤ n := by
          simp only [List.length_cons] at *
          omega
        obtain ⟨ihb, ihf⟩ := ih (b :: r) "right" htllen (Or.inr rfl) htlmem
        have hanp := hnp a (by simp)
        have ha1 := (nonParen_iff a).mp hanp
        constructor
        · intro d
          rw [show [tk "("] ++ [a] ++ add_associativity (b :: r) "right" ++ [tk ")"]
              = tk "(" :: a :: (add_associativity (b :: r) "right" ++ [tk ")"]) by simp]
          rw [balRun_cons_open, balRun_cons_other a _ _ ha1.1 ha1.2, balRun_append, ihb,
            Option.some_bind, balRun_cons_close_succ]
          rfl
        · rw [show [tk "("] ++ [a] ++ add_associativity (b :: r) "right" ++ [tk ")"]
              = tk "(" :: a :: (add_associativity (b :: r) "right" ++ [tk ")"]) by simp]
          rw [List.filter_cons, List.filter_cons]
          simp only [hoParen, hanp]
          rw [List.filter_append, ihf,
            show List.filter nonParenTok [tk ")"] = [] by simp [hcParen]]
          simp


/-! ## Mode irrelevance of the tokenizer -/

theorem truthy_eq_mkind (a : Option String) :
    truthy a = decide (mkind a ≠ ModeKind.noneLike) := by
  cases a with
  | none => rfl
  | some m =>
    by_cases hm : m = ""
    · subst hm; rfl
    · simp only [truthy, mkind, if_neg hm]
      by_cases h1 : m = "left"
      · simp [h1, hm]
      · by_cases h2 : m = "right"
        · simp [h1, h2, hm]
        · simp [h1, h2, hm]

theorem truthy_mkind (a b : Option String) (h : mkind a = mkind b) :
    truthy a = truthy b := by
  rw [truthy_eq_mkind, truthy_eq_mkind, h]

theorem mkind_some_left (m : String) (h : mkind (some m) = ModeKind.leftMode) :
    m = "left" := by
  by_contra hne
  by_cases hm : m = ""
  · simp [mkind, hm] at h
  · by_cases h2 : m = "right" <;> simp [mkind, hm, hne, h2] at h

theorem mkind_some_right (m : String) (h : mkind (some m) = ModeKind.rightMode) :
    m = "right" := by
  by_contra hne
  by_cases hm : m = ""
  · simp [mkind, hm] at h
  · by_cases h1 : m = "left" <;> simp [mkind, hm, hne, h1] at h

theorem mkind_some_other (m : String) (h : mkind (some m) = ModeKind.otherMode) :
    m ≠ "" ∧ m ≠ "left" ∧ m ≠ "right" := by
  refine ⟨?_, ?_, ?_⟩ <;> intro he <;> simp [mkind, he] at h

theorem addAssoc_getD_eq (a b : Option String) (h : mkind a = mkind b)
    (ht : truthy a = true) (ts : Toks) :
    add_associativity ts (a.getD "") = add_associativity ts (b.getD "") := by
  cases a with
  | none => simp [truthy] at ht
  | some ma =>
    cases b with
    | none =>
      exfalso
      rw [truthy_eq_mkind, h] at ht
      simp [mkind] at ht
    | some mb =>
      simp only [Option.getD_some]
      cases hk : mkind (some ma) with
      | noneLike =>
        rw [truthy_eq_mkind, hk] at ht
        simp at ht
      | leftMode =>
        rw [mkind_some_left ma hk, mkind_some_left mb (by rw [← h, hk])]
      | rightMode =>
        rw [mkind_some_right ma hk, mkind_some_right mb (by rw [← h, hk])]
      | otherMode =>
        obtain ⟨_, hal, har⟩ := mkind_some_other ma hk
        obtain ⟨_, hbl, hbr⟩ := mkind_some_other mb (by rw [← h, hk])
        rw [add_assoc_other ts ma hal har, add_assoc_other ts mb hbl hbr]

theorem parseRecF_mode_irrel (f : Nat) :
    ∀ s pos a b, mkind a = mkind b → parseRecF f s pos a = parseRecF f s pos b := by
  induction f with
  | zero => intro s pos a b _; rfl
  | succ f ih =>
    intro s pos a b h
    have e1 : truthy a = truthy b := truthy_mkind a b h
    have ihab : ∀ s' p', parseRecF f s' p' a = parseRecF f s' p' b :=
      fun s' p' => ih s' p' a b h
    have e5 : ∀ ts, (if truthy a then add_associativity ts (a.getD "") else ts)
        = if truthy b then add_associativity ts (b.getD "") else ts := by
      intro ts
      by_cases ht : truthy a = true
      · rw [if_pos ht, if_pos (e1 ▸ ht), addAssoc_getD_eq a b h ht]
      · rw [if_neg ht, if_neg (fun hb => ht (e1 ▸ hb))]
    simp only [parseRecF_succ, parseStep]
    simp only [e5]
    simp only [ihab, e1]

/-! ## Strip lemmas -/

theorem rstrip_cons_nonws (a : Char) (l : List Char) (h : isWSCh a = false) :
    rstrip (a :: l) = a :: rstrip l := by
  show (match rstrip l with
    | [] => if isWSCh a then [] else [a]
    | b :: r => a :: b :: r) = a :: rstrip l
  cases hr : rstrip l with
  | nil => simp [h]
  | cons b r => rfl

theorem rstrip_snoc (x : Char) (h : isWSCh x = false) :
    ∀ l : List Char, rstrip (l ++ [x]) = l ++ [x] := by
  intro l
  induction l with
  | nil =>
    show (match rstrip [] with
      | [] => if isWSCh x then [] else [x]
      | b :: r => x :: b :: r) = [x]
    simp [rstrip, h]
  | cons a l ih =>
    show (match rstrip (l ++ [x]) with
      | [] => if isWSCh a then [] else [a]
      | b :: r => a :: b :: r) = a :: (l ++ [x])
    rw [ih]
    cases hl : l ++ [x] with
    | nil => exact absurd hl (by simp)
    | cons b r => rfl

theorem rstrip_allws (l : List Char) (h : ∀ c ∈ l, isWSCh c) :
    rstrip l = [] := by
  induction l with
  | nil => rfl
  | cons a l ih =>
    show (match rstrip l with
      | [] => if isWSCh a then [] else [a]
      | b :: r => a :: b :: r) = []
    rw [ih fun c hc => h c (by simp [hc])]
    simp [h a (by simp)]

theorem pyStrip_allws (l : List Char) (h : ∀ c ∈ l, isWSCh c) :
    pyStrip l = [] := by
  rw [pyStrip]
  refine rstrip_allws _ ?_
  intro c hc
  exact h c (List.dropWhile_subset isWSCh hc)

theorem pyStrip_cons_nonws (a : Char) (l : List Char) (h : isWSCh a = false) :
    pyStrip (a :: l) = a :: rstrip l := by
  rw [pyStrip, List.dropWhile_cons, if_neg (by simp [h]), rstrip_cons_nonws a l h]

/-! ## Scanning over non-parenthesis characters -/

theorem pscan_nonparen_close (m : List Char) (r : List Char)
    (h : ∀ c ∈ m, c ≠ '(' ∧ c ≠ ')') :
    pscan (m ++ ')' :: r) 1 = (m.length + 1, 0) := by
  induction m with
  | nil =>
    show pscan (')' :: r) 1 = (1, 0)
    simp [pscan]
  | cons x m ih =>
    have hx := h x (by simp)
    show pscan (x :: (m ++ ')' :: r)) 1 = (m.length + 1 + 1, 0)
    rw [show pscan (x :: (m ++ ')' :: r)) 1
        = ((pscan (m ++ ')' :: r) (if x = '(' then 2 else if x = ')' then 0 else 1)).1 + 1,
           (pscan (m ++ ')' :: r) (if x = '(' then 2 else if x = ')' then 0 else 1)).2) from rfl]
    rw [if_neg hx.1, if_neg hx.2, ih fun c hc => h c (by simp [hc])]

/-! ## Whitespace-only bracket interiors fail silently -/

theorem parse_ws_group (ws : List Char) (hne : ws ≠ []) (hws : ∀ c ∈ ws, isWSCh c) :
    parse_tokens ('(' :: ws ++ [')']) none = .error none := by
  have hnp : ∀ c ∈ ws, c ≠ '(' ∧ c ≠ ')' := by
    intro c hc
    have h := hws c hc
    constructor <;> rintro rfl <;> exact absurd h (by decide)
  have hstrip : pyStrip ('(' :: ws ++ [')']) = '(' :: (ws ++ [')']) := by
    rw [show ('(' :: ws ++ [')']) = '(' :: (ws ++ [')']) from rfl,
      pyStrip_cons_nonws '(' (ws ++ [')']) (by decide),
      rstrip_snoc ')' (by decide) ws]
  have hwlen : 1 ≤ ws.length := List.length_pos.mpr hne
  have hinner : ∀ p, parseRecF (ws.length + 2) ws p none = .ok [] := by
    intro p
    rw [show ws.length + 2 = (ws.length + 1) + 1 from rfl, parseRecF_succ]
    simp only [parseStep, pyStrip_allws ws hws]
  show parseRecF (('(' :: ws ++ [')']).length + 1) ('(' :: ws ++ [')']) 0 none = .error none
  rw [show ('(' :: ws ++ [')']).length = ws.length + 2 by simp]
  rw [parseRecF_succ]
  simp only [parseStep, hstrip]
  rw [if_neg (show ¬ (('(' : Char) = ' ') by decide),
    if_neg (show ¬ (('(' : Char) = '\\') by decide),
    if_pos trivial]
  rw [pscan_nonparen_close ws [] hnp]
  rw [if_neg (show ¬ (((ws.length + 1, 0) : Nat × Nat).2 ≠ 0) by simp)]
  rw [if_neg (show ¬ (1 + ((ws.length + 1, 0) : Nat × Nat).1 ≤ 2) by simp; omega)]
  rw [show 1 + ((ws.length + 1, 0) : Nat × Nat).1 - 2 = ws.length by simp; omega]
  rw [List.take_left ws [')'], hinner (0 + 1)]

/-! ## Inputs beginning with an immediately-closed bracket -/

theorem parse_empty_group (rest : List Char) :
    parse_tokens ('(' :: ')' :: rest) none
      = .error (some ⟨"Missing tokens between brackets.", 1⟩) := by
  have hstrip : pyStrip ('(' :: ')' :: rest) = '(' :: ')' :: rstrip rest := by
    rw [pyStrip_cons_nonws '(' (')' :: rest) (by decide),
      rstrip_cons_nonws ')' rest (by decide)]
  have hpscan : pscan (')' :: rstrip rest) 1 = (1, 0) := by
    rw [pscan_cons_succ, if_neg (show ¬ ((')' : Char) = '(') by decide), if_pos rfl,
      pscan_zero]
  show parseRecF (('(' :: ')' :: rest).length + 1) ('(' :: ')' :: rest) 0 none = _
  rw [show ('(' :: ')' :: rest).length = rest.length + 2 by simp]
  rw [parseRecF_succ]
  simp only [parseStep, hstrip]
  rw [if_neg (show ¬ (('(' : Char) = ' ') by decide),
    if_neg (show ¬ (('(' : Char) = '\\') by decide),
    if_pos trivial]
  rw [hpscan]
  rw [if_neg (show ¬ (((1, 0) : Nat × Nat).2 ≠ 0) by simp)]
  rw [if_pos (show 1 + ((1, 0) : Nat × Nat).1 ≤ 2 by simp)]

/-! ## Token-aware re-joining of a token sequence

`sj` joins a token sequence back into one string, inserting a single space
between two adjacent tokens exactly when both are identifier-run tokens
(neither `"("`, `")"` nor `"\\"`), since those are the only boundaries the
tokenizer needs a separator for. -/

/-- A structural token: `"("`, `")"` or `"\\"`. -/
def structuralTok (t : Tok) : Bool :=
  t = tk "(" || t = tk ")" || t = tk "\\"

/-- The separator inserted between two adjacent tokens on re-joining. -/
def sepFor (t u : Tok) : List Char :=
  if structuralTok t || structuralTok u then [] else [' ']

/-- Token-aware re-join of a token sequence into a single string. -/
def sj : Toks → List Char
  | [] => []
  | [t] => t
  | t :: u :: r => t ++ (sepFor t u ++ sj (u :: r))

theorem sj_nil : sj [] = [] := rfl

theorem sj_single (t : Tok) : sj [t] = t := rfl

theorem sj_cons2 (t u : Tok) (r : Toks) :
    sj (t :: u :: r) = t ++ (sepFor t u ++ sj (u :: r)) := rfl

theorem sj_cons_structural (x : Tok) (l : Toks) (h : structuralTok x = true) :
    sj (x :: l) = x ++ sj l := by
  cases l with
  | nil => simp [sj_single, sj_nil]
  | cons u r =>
    rw [sj_cons2, sepFor, if_pos (by simp [h])]
    rfl

theorem sj_cons_ex (x : Tok) (l : Toks) : ∃ z, sj (x :: l) = x ++ z := by
  cases l with
  | nil => exact ⟨[], by simp [sj_single]⟩
  | cons u r => exact ⟨_, sj_cons2 x u r⟩

theorem getLastD_indep (l : Toks) (x d d' : Tok) :
    (x :: l).getLastD d = (x :: l).getLastD d' := by
  rw [List.getLastD_cons, List.getLastD_cons]

theorem sj_append (b : Tok) (B : Toks) :
    ∀ A : Toks, A ≠ [] →
      sj (A ++ b :: B) = sj A ++ (sepFor (A.getLastD []) b ++ sj (b :: B)) := by
  intro A
  induction A with
  | nil => intro h; exact absurd rfl h
  | cons a A ih =>
    intro _
    cases A with
    | nil =>
      rw [List.getLastD_cons, List.getLastD_nil]
      rfl
    | cons a2 A' =>
      rw [List.cons_append, List.cons_append, sj_cons2 a a2 (A' ++ b :: B),
        ← List.cons_append, ih (by simp), sj_cons2 a a2 A', List.getLastD_cons,
        List.getLastD_cons, List.getLastD_cons]
      simp [List.append_assoc]

/-! ## The shape of tokenizer outputs under `mode = None` -/

/-- An identifier-run token: only letters and digits (possibly empty — the
source emits empty tokens for consecutive spaces inside a run). -/
def wordTok (t : Tok) : Bool := t.all isVarCh

/-- A token that can start an identifier chunk: a letter followed by
letters and digits. -/
def letterWord (t : Tok) : Bool :=
  match t with
  | [] => false
  | c :: cs => isAlphaCh c && cs.all isVarCh

/-- What may follow an identifier run in an output: nothing, a bracket
group, or a lambda (the tokenizer's case 4 consumes the maximal
identifier-and-space run, so another identifier token cannot follow). -/
def chainRestOk (rest : Toks) : Prop :=
  rest = [] ∨ (∃ r, rest = tk "(" :: r) ∨ (∃ r, rest = tk "\\" :: r)

/-- The token sequences the tokenizer can output under `mode = None`:
nothing; a lambda marker, its bound name and a non-empty body; a bracket
group around a non-empty interior followed by more output; or a non-empty
identifier run (letter-headed first word, non-empty last word) followed by
output that does not start with an identifier. -/
inductive Out : Toks → Prop where
  | nil : Out []
  | lam (nm : Tok) (body : Toks) (hnm : letterWord nm) (hb : Out body)
      (hne : body ≠ []) : Out (tk "\\" :: nm :: body)
  | brk (inner rest : Toks) (hi : Out inner) (hne : inner ≠ []) (hr : Out rest) :
      Out (tk "(" :: inner ++ tk ")" :: rest)
  | chain (w0 : Tok) (ws rest : Toks) (hw0 : letterWord w0)
      (hws : ∀ w ∈ ws, wordTok w) (hlast : (w0 :: ws).getLastD [] ≠ [])
      (hro : chainRestOk rest) (hr : Out rest) : Out ((w0 :: ws) ++ rest)

theorem letterWord_word (t : Tok) (h : letterWord t) : wordTok t := by
  match t with
  | [] => exact absurd h (by simp [letterWord])
  | c :: cs =>
    simp only [letterWord, Bool.and_eq_true] at h
    simp only [wordTok, List.all_cons, Bool.and_eq_true]
    exact ⟨by simp [isVarCh, h.1], h.2⟩

theorem wordTok_not_structural (t : Tok) (h : wordTok t) :
    structuralTok t = false := by
  by_contra hs
  have hs' : structuralTok t = true := by
    revert hs; cases structuralTok t <;> simp
  simp only [structuralTok, Bool.or_eq_true, decide_eq_true_eq] at hs'
  rcases hs' with (h1 | h1) | h1 <;> subst h1 <;> revert h <;> decide

theorem out_cases (t : Toks) (h : Out t) :
    t = [] ∨
      (∃ nm body, t = tk "\\" :: nm :: body ∧ letterWord nm ∧ Out body ∧ body ≠ []) ∨
      (∃ inner rest, t = tk "(" :: inner ++ tk ")" :: rest ∧ Out inner ∧ inner ≠ [] ∧ Out rest) ∨
      (∃ w0 ws rest, t = (w0 :: ws) ++ rest ∧ letterWord w0 ∧ (∀ w ∈ ws, wordTok w) ∧
        (w0 :: ws).getLastD [] ≠ [] ∧ chainRestOk rest ∧ Out rest) := by
  cases h with
  | nil => exact Or.inl rfl
  | lam nm body hnm hb hne => exact Or.inr (Or.inl ⟨nm, body, rfl, hnm, hb, hne⟩)
  | brk inner rest hi hne hr => exact Or.inr (Or.inr (Or.inl ⟨inner, rest, rfl, hi, hne, hr⟩))
  | chain w0 ws rest hw0 hws hlast hro hr =>
    exact Or.inr (Or.inr (Or.inr ⟨w0, ws, rest, rfl, hw0, hws, hlast, hro, hr⟩))

/-! ## Character-class facts -/

theorem alpha_facts (c : Char) (h : isAlphaCh c = true) :
    isVarCh c = true ∧ isWSCh c = false ∧ c ≠ ' ' ∧ c ≠ '\\' ∧ c ≠ '(' ∧ c ≠ ')' ∧ c ≠ '.' := by
  refine ⟨by simp [isVarCh, h], ?_, ?_, ?_, ?_, ?_, ?_⟩ <;>
    first
      | (rintro rfl; revert h; decide)
      | (by_contra hx
         have : isWSCh c = true := by revert hx; cases isWSCh c <;> simp
         simp only [isWSCh, Bool.or_eq_true, decide_eq_true_eq] at this
         rcases this with ((((h1 | h1) | h1) | h1) | h1) | h1 <;> subst h1 <;> revert h <;> decide)

theorem var_not_space (c : Char) (h : isVarCh c = true) : ¬ c = ' ' := by
  rintro rfl; revert h; decide

theorem var_facts (c : Char) (h : isVarCh c = true) :
    c ≠ ' ' ∧ c ≠ '\\' ∧ c ≠ '(' ∧ c ≠ ')' := by
  refine ⟨?_, ?_, ?_, ?_⟩ <;> rintro rfl <;> revert h <;> decide

/-! ## takeWhile and append helpers -/

theorem takeWhile_append_all (p : Char → Bool) (B : List Char) :
    ∀ A, (∀ c ∈ A, p c = true) → List.takeWhile p (A ++ B) = A ++ List.takeWhile p B := by
  intro A
  induction A with
  | nil => intro _; rfl
  | cons a A ih =>
    intro h
    rw [List.cons_append, List.takeWhile_cons, if_pos (h a (by simp)), ih fun c hc => h c (by simp [hc])]
    rfl

theorem getLast?_append_right (A B : List Char) (c : Char) (h : B.getLast? = some c) :
    (A ++ B).getLast? = some c := by
  rw [List.getLast?_append, h]
  rfl

/-! ## splitSpaces facts -/

theorem splitSpaces_ne_nil (u : List Char) : splitSpaces u ≠ [] := by
  induction u with
  | nil => simp [splitSpaces]
  | cons c r ih =>
    by_cases hc : c = ' '
    · simp [splitSpaces, hc]
    · simp only [splitSpaces, if_neg hc]
      cases hs : splitSpaces r with
      | nil => simp
      | cons w ws => simp

theorem splitSpaces_words (u : List Char) (h : ∀ c ∈ u, isVarCh c ∨ c = ' ') :
    ∀ w ∈ splitSpaces u, wordTok w := by
  induction u with
  | nil =>
    intro w hw
    simp only [splitSpaces, List.mem_singleton] at hw
    subst hw; rfl
  | cons c r ih =>
    intro w hw
    by_cases hc : c = ' '
    · rw [splitSpaces, if_pos hc] at hw
      rcases List.mem_cons.mp hw with h1 | h1
      · subst h1; rfl
      · exact ih (fun d hd => h d (by simp [hd])) w h1
    · rw [splitSpaces, if_neg hc] at hw
      have hcvar : isVarCh c = true := by
        rcases h c (by simp) with h2 | h2
        · exact h2
        · exact absurd h2 hc
      cases hs : splitSpaces r with
      | nil => exact absurd hs (splitSpaces_ne_nil r)
      | cons w1 ws1 =>
        rw [hs] at hw
        rcases List.mem_cons.mp hw with h1 | h1
        · subst h1
          have hw1 : wordTok w1 := ih (fun d hd => h d (by simp [hd])) w1 (by simp [hs])
          simp only [wordTok, List.all_cons, Bool.and_eq_true]
          exact ⟨hcvar, hw1⟩
        · exact ih (fun d hd => h d (by simp [hd])) w (by simp [hs, h1])

theorem splitSpaces_wordTok (w : Tok) (h : wordTok w) : splitSpaces w = [w] := by
  induction w with
  | nil => rfl
  | cons c w' ih =>
    have hc : isVarCh c := by
      simp only [wordTok, List.all_cons, Bool.and_eq_true] at h
      exact h.1
    have hw' : wordTok w' := by
      simp only [wordTok, List.all_cons, Bool.and_eq_true] at h
      exact h.2
    rw [splitSpaces, if_neg (var_not_space c hc), ih hw']

theorem splitSpaces_word_space (rest : List Char) :
    ∀ w : Tok, wordTok w → splitSpaces (w ++ ' ' :: rest) = w :: splitSpaces rest := by
  intro w
  induction w with
  | nil => intro _; rw [List.nil_append, splitSpaces, if_pos rfl]
  | cons c w' ih =>
    intro h
    have hc : isVarCh c := by
      simp only [wordTok, List.all_cons, Bool.and_eq_true] at h
      exact h.1
    have hw' : wordTok w' := by
      simp only [wordTok, List.all_cons, Bool.and_eq_true] at h
      exact h.2
    rw [List.cons_append, splitSpaces, if_neg (var_not_space c hc), ih hw']

/-! ## sj on identifier runs -/

theorem sj_words_split :
    ∀ l : Toks, (∀ w ∈ l, wordTok w) → l ≠ [] → splitSpaces (sj l) = l := by
  intro l
  induction l with
  | nil => intro _ h; exact absurd rfl h
  | cons w l' ih =>
    intro hw _
    cases l' with
    | nil => exact splitSpaces_wordTok w (hw w (by simp))
    | cons u r =>
      have hwu : structuralTok w = false := wordTok_not_structural w (hw w (by simp))
      have huu : structuralTok u = false := wordTok_not_structural u (hw u (by simp))
      rw [sj_cons2, sepFor, if_neg (by simp [hwu, huu])]
      rw [show w ++ ([' '] ++ sj (u :: r)) = w ++ ' ' :: sj (u :: r) by simp]
      rw [splitSpaces_word_space (sj (u :: r)) w (hw w (by simp)),
        ih (fun v hv => hw v (by simp [hv])) (by simp)]

theorem sj_words_chars :
    ∀ l : Toks, (∀ w ∈ l, wordTok w) → ∀ c ∈ sj l, isVarCh c ∨ c = ' ' := by
  intro l
  induction l with
  | nil => intro _ c hc; simp [sj_nil] at hc
  | cons w l' ih =>
    intro hw c hc
    cases l' with
    | nil =>
      rw [sj_single] at hc
      have := hw w (by simp)
      simp only [wordTok, List.all_eq_true] at this
      exact Or.inl (this c hc)
    | cons u r =>
      rw [sj_cons2] at hc
      rcases List.mem_append.mp hc with h1 | h1
      · have := hw w (by simp)
        simp only [wordTok, List.all_eq_true] at this
        exact Or.inl (this c h1)
      · rcases List.mem_append.mp h1 with h2 | h2
        · right
          have hwu : structuralTok w = false := wordTok_not_structural w (hw w (by simp))
          have huu : structuralTok u = false := wordTok_not_structural u (hw u (by simp))
          rw [sepFor, if_neg (by simp [hwu, huu])] at h2
          simpa using h2
        · exact ih (fun v hv => hw v (by simp [hv])) c h2

theorem sj_words_last :
    ∀ l : Toks, (∀ w ∈ l, wordTok w) → l ≠ [] → l.getLastD [] ≠ [] →
      ∃ cl, (sj l).getLast? = some cl ∧ isVarCh cl = true := by
  intro l
  induction l with
  | nil => intro _ h _; exact absurd rfl h
  | cons w l' ih =>
    intro hw _ hlast
    cases l' with
    | nil =>
      rw [sj_single]
      have hwne : w ≠ [] := by
        simpa [List.getLastD_cons, List.getLastD_nil] using hlast
      refine ⟨w.getLast hwne, List.getLast?_eq_getLast w hwne, ?_⟩
      have hall := hw w (by simp)
      simp only [wordTok, List.all_eq_true] at hall
      exact hall _ (List.getLast_mem hwne)
    | cons u r =>
      have hrec := ih (fun v hv => hw v (by simp [hv])) (by simp)
        (by rw [List.getLastD_cons] at hlast
            rw [show (u :: r).getLastD [] = (u :: r).getLastD w from getLastD_indep r u [] w]
            exact hlast)
      obtain ⟨cl, hcl, hvar⟩ := hrec
      refine ⟨cl, ?_, hvar⟩
      rw [sj_cons2]
      have hne : sj (u :: r) ≠ [] := by
        intro hnil
        rw [hnil] at hcl
        simp at hcl
      rw [show w ++ (sepFor w u ++ sj (u :: r)) = (w ++ sepFor w u) ++ sj (u :: r) by simp]
      exact getLast?_append_right _ _ cl hcl

theorem var_not_ws (c : Char) (h : isVarCh c = true) : isWSCh c = false := by
  by_contra hx
  have hws : isWSCh c = true := by revert hx; cases isWSCh c <;> simp
  simp only [isWSCh, Bool.or_eq_true, decide_eq_true_eq] at hws
  rcases hws with ((((h1 | h1) | h1) | h1) | h1) | h1 <;> subst h1 <;> revert h <;> decide

/-! ## Strip is the identity on re-joined outputs -/

theorem rstrip_id (l : List Char) :
    ∀ c, l.getLast? = some c → isWSCh c = false → rstrip l = l := by
  induction l with
  | nil => intro c hc _; simp at hc
  | cons a l ih =>
    intro c hc hcw
    cases l with
    | nil =>
      have ha : a = c := by simpa using hc
      have haw : isWSCh a = false := by rw [ha]; exact hcw
      show (match rstrip ([] : List Char) with
        | [] => if isWSCh a then [] else [a]
        | b :: r => a :: b :: r) = [a]
      simp [rstrip, haw]
    | cons b r =>
      have hlast : (b :: r).getLast? = some c := by
        rw [List.getLast?_cons_cons] at hc
        exact hc
      have := ih c hlast hcw
      show (match rstrip (b :: r) with
        | [] => if isWSCh a then [] else [a]
        | x :: y => a :: x :: y) = a :: b :: r
      rw [this]

theorem pyStrip_id_of (l : List Char)
    (h1 : ∀ c, l.head? = some c → isWSCh c = false)
    (h2 : ∀ c, l.getLast? = some c → isWSCh c = false) :
    pyStrip l = l := by
  cases l with
  | nil => rfl
  | cons a r =>
    have ha : isWSCh a = false := h1 a rfl
    rw [pyStrip, List.dropWhile_cons, if_neg (by simp [ha])]
    have hlast : ∃ c, (a :: r).getLast? = some c := by
      cases hr : (a :: r).getLast? with
      | none => simp at hr
      | some c => exact ⟨c, rfl⟩
    obtain ⟨c, hc⟩ := hlast
    exact rstrip_id (a :: r) c hc (h2 c hc)

/-! ## sj decompositions for each output shape -/

theorem sj_lam (nm : Tok) (body : Toks) :
    sj (tk "\\" :: nm :: body) = '\\' :: sj (nm :: body) := by
  rw [sj_cons_structural (tk "\\") (nm :: body) (by decide)]
  rfl

theorem sj_close_cons (rest : Toks) : sj (tk ")" :: rest) = ')' :: sj rest := by
  rw [sj_cons_structural _ _ (by decide)]
  rfl

theorem sj_open_cons (rest : Toks) : sj (tk "(" :: rest) = '(' :: sj rest := by
  rw [sj_cons_structural _ _ (by decide)]
  rfl

theorem sj_brk (inner rest : Toks) (hne : inner ≠ []) :
    sj (tk "(" :: inner ++ tk ")" :: rest) = '(' :: (sj inner ++ ')' :: sj rest) := by
  rw [List.cons_append, sj_open_cons, sj_append (tk ")") rest inner hne,
    sepFor, if_pos (by rw [show structuralTok (tk ")") = true from by decide]; simp),
    sj_close_cons]
  simp

/-- The first character of a re-joined non-empty output is an opening
bracket, a backslash, or a letter. -/
theorem sj_head_shape (t : Toks) (h : Out t) (hne : t ≠ []) :
    ∃ c r, sj t = c :: r ∧ (c = '(' ∨ c = '\\' ∨ isAlphaCh c = true) := by
  rcases out_cases t h with rfl | ⟨nm, body, rfl, hnm, hb, hbne⟩
    | ⟨inner, rest, rfl, hi, hine, hr⟩ | ⟨w0, ws, rest, rfl, hw0, hws, hlast, hro, hr⟩
  · exact absurd rfl hne
  · rw [sj_lam]
    exact ⟨'\\', _, rfl, Or.inr (Or.inl rfl)⟩
  · rw [sj_brk inner rest hine]
    exact ⟨'(', _, rfl, Or.inl rfl⟩
  · cases w0 with
    | nil => exact absurd hw0 (by simp [letterWord])
    | cons c cs =>
      have hca : isAlphaCh c = true := by
        simp only [letterWord, Bool.and_eq_true] at hw0
        exact hw0.1
      rw [List.cons_append]
      obtain ⟨z, hz⟩ := sj_cons_ex (c :: cs) (ws ++ rest)
      rw [hz]
      exact ⟨c, cs ++ z, by simp, Or.inr (Or.inr hca)⟩

/-- The last character of a re-joined non-empty output is not whitespace. -/
theorem sj_last_nonws (t : Toks) (h : Out t) :
    t ≠ [] → ∃ c, (sj t).getLast? = some c ∧ isWSCh c = false := by
  induction h with
  | nil => intro h; exact absurd rfl h
  | lam nm body hnm hb hbne ih =>
    intro _
    obtain ⟨c, hc, hcw⟩ := ih hbne
    refine ⟨c, ?_, hcw⟩
    obtain ⟨b, body', rfl⟩ : ∃ b body', body = b :: body' := by
      cases body with
      | nil => exact absurd rfl hbne
      | cons b body' => exact ⟨b, body', rfl⟩
    rw [sj_lam, sj_cons2,
      show ('\\' :: (nm ++ (sepFor nm b ++ sj (b :: body'))))
        = ('\\' :: nm ++ sepFor nm b) ++ sj (b :: body') by simp]
    exact getLast?_append_right _ _ c hc
  | brk inner rest hi hine hr ih1 ih2 =>
    intro _
    rw [sj_brk inner rest hine]
    cases hrest : rest with
    | nil =>
      refine ⟨')', ?_, by decide⟩
      rw [show ('(' :: (sj inner ++ ')' :: sj ([] : Toks)))
          = ('(' :: sj inner) ++ [')'] by simp [sj_nil]]
      exact getLast?_append_right _ _ ')' rfl
    | cons r0 rr =>
      obtain ⟨c, hc, hcw⟩ := ih2 (by simp [hrest])
      rw [hrest] at hc
      refine ⟨c, ?_, hcw⟩
      rw [show ('(' :: (sj inner ++ ')' :: sj (r0 :: rr)))
          = ('(' :: sj inner ++ [')']) ++ sj (r0 :: rr) by simp]
      exact getLast?_append_right _ _ c hc
  | chain w0 ws rest hw0 hws hlast hro hr ih =>
    intro _
    have hwords : ∀ w ∈ w0 :: ws, wordTok w := by
      intro w hw
      rcases List.mem_cons.mp hw with h1 | h1
      · subst h1; exact letterWord_word _ hw0
      · exact hws w h1
    rcases hro with rfl | ⟨r, rfl⟩ | ⟨r, rfl⟩
    · rw [List.append_nil]
      obtain ⟨cl, hcl, hvar⟩ := sj_words_last (w0 :: ws) hwords (by simp) hlast
      exact ⟨cl, hcl, var_not_ws cl hvar⟩
    · obtain ⟨c, hc, hcw⟩ := ih (by simp)
      refine ⟨c, ?_, hcw⟩
      rw [sj_append (tk "(") r (w0 :: ws) (by simp)]
      rw [show sj (w0 :: ws) ++ (sepFor ((w0 :: ws).getLastD []) (tk "(") ++ sj (tk "(" :: r))
          = (sj (w0 :: ws) ++ sepFor ((w0 :: ws).getLastD []) (tk "(")) ++ sj (tk "(" :: r)
          by simp]
      exact getLast?_append_right _ _ c hc
    · obtain ⟨c, hc, hcw⟩ := ih (by simp)
      refine ⟨c, ?_, hcw⟩
      rw [sj_append (tk "\\") r (w0 :: ws) (by simp)]
      rw [show sj (w0 :: ws) ++ (sepFor ((w0 :: ws).getLastD []) (tk "\\") ++ sj (tk "\\" :: r))
          = (sj (w0 :: ws) ++ sepFor ((w0 :: ws).getLastD []) (tk "\\")) ++ sj (tk "\\" :: r)
          by simp]
      exact getLast?_append_right _ _ c hc

/-- Stripping is the identity on re-joined outputs. -/
theorem sj_strip_id (t : Toks) (h : Out t) : pyStrip (sj t) = sj t := by
  by_cases hne : t = []
  · subst hne; rfl
  · obtain ⟨c, r, hcr, hcls⟩ := sj_head_shape t h hne
    obtain ⟨cl, hcl, hclw⟩ := sj_last_nonws t h hne
    refine pyStrip_id_of (sj t) ?_ ?_
    · intro d hd
      rw [hcr] at hd
      simp only [List.head?_cons, Option.some.injEq] at hd
      subst hd
      rcases hcls with rfl | rfl | hca
      · decide
      · decide
      · exact (alpha_facts _ hca).2.1
    · intro d hd
      rw [hcl] at hd
      simp only [Option.some.injEq] at hd
      subst hd
      exact hclw

/-! ## The bracket scan over re-joined outputs -/

theorem varspace_nonparen (ch : Char) (h : isVarCh ch = true ∨ ch = ' ') :
    ch ≠ '(' ∧ ch ≠ ')' := by
  rcases h with h | rfl
  · exact ⟨(var_facts ch h).2.2.1, (var_facts ch h).2.2.2⟩
  · exact ⟨by decide, by decide⟩

theorem pscan_nonparen (A : List Char) (h : ∀ ch ∈ A, ch ≠ '(' ∧ ch ≠ ')') :
    ∀ c, pscan A (c + 1) = (A.length, c + 1) := by
  induction A with
  | nil => intro c; rw [pscan_nil_succ]; rfl
  | cons x X ih =>
    intro c
    have hx := h x (by simp)
    rw [pscan_cons_succ, if_neg hx.1, if_neg hx.2, ih (fun ch hch => h ch (by simp [hch])) c]
    rfl

theorem pscan_append_of (Y : List Char) :
    ∀ (X : List Char) (d d' : Nat), pscan X d = (X.length, d') →
      pscan (X ++ Y) d = (X.length + (pscan Y d').1, (pscan Y d').2) := by
  intro X
  induction X with
  | nil =>
    intro d d' hX
    cases d with
    | zero =>
      rw [pscan_zero] at hX
      have hd' : d' = 0 := by
        have := congrArg Prod.snd hX
        simpa using this.symm
      subst hd'
      rw [List.nil_append, pscan_zero]
      rfl
    | succ c =>
      rw [pscan_nil_succ] at hX
      have hd' : d' = c + 1 := by
        have := congrArg Prod.snd hX
        simpa using this.symm
      subst hd'
      rw [List.nil_append]
      simp
  | cons x X ih =>
    intro d d' hX
    cases d with
    | zero =>
      rw [pscan_zero] at hX
      have := congrArg Prod.fst hX
      simp at this
    | succ c =>
      rw [pscan_cons_succ] at hX
      have h1 : (pscan X (if x = '(' then c + 2 else if x = ')' then c else c + 1)).1
          = X.length := by
        have := congrArg Prod.fst hX
        simpa using this
      have h2 : (pscan X (if x = '(' then c + 2 else if x = ')' then c else c + 1)).2
          = d' := by
        have := congrArg Prod.snd hX
        simpa using this
      have hXc : pscan X (if x = '(' then c + 2 else if x = ')' then c else c + 1)
          = (X.length, d') := by
        rw [Prod.ext_iff]
        exact ⟨h1, h2⟩
      rw [List.cons_append, pscan_cons_succ, ih _ _ hXc]
      simp
      omega

/-- Re-joined outputs are parenthesis-balanced for the scanning loop: the
scan passes through them without the count ever reaching 0. -/
theorem sj_pscan (t : Toks) (h : Out t) :
    ∀ c, pscan (sj t) (c + 1) = ((sj t).length, c + 1) := by
  induction h with
  | nil =>
    intro c
    rw [sj_nil, pscan_nil_succ]
    rfl
  | lam nm body hnm hb hbne ih =>
    intro c
    obtain ⟨b, body', rfl⟩ : ∃ b body', body = b :: body' := by
      cases body with
      | nil => exact absurd rfl hbne
      | cons b body' => exact ⟨b, body', rfl⟩
    rw [sj_lam, sj_cons2]
    have hword : wordTok nm := letterWord_word nm hnm
    have hnp : ∀ ch ∈ nm ++ sepFor nm b, ch ≠ '(' ∧ ch ≠ ')' := by
      intro ch hch
      rcases List.mem_append.mp hch with h1 | h1
      · refine varspace_nonparen ch (Or.inl ?_)
        simp only [wordTok, List.all_eq_true] at hword
        exact hword ch h1
      · refine varspace_nonparen ch (Or.inr ?_)
        revert h1
        rw [sepFor]
        by_cases hs : structuralTok nm || structuralTok b
        · rw [if_pos hs]; intro h1; simp at h1
        · rw [if_neg hs]; intro h1; simpa using h1
    have hA : pscan (nm ++ sepFor nm b) (c + 1) = ((nm ++ sepFor nm b).length, c + 1) :=
      pscan_nonparen _ hnp c
    rw [pscan_cons_succ, if_neg (by decide : ¬ ('\\' : Char) = '('),
      if_neg (by decide : ¬ ('\\' : Char) = ')')]
    rw [show nm ++ (sepFor nm b ++ sj (b :: body')) = (nm ++ sepFor nm b) ++ sj (b :: body')
        by simp]
    rw [pscan_append_of (sj (b :: body')) (nm ++ sepFor nm b) (c + 1) (c + 1) hA, ih c]
    simp
    omega
  | brk inner rest hi hine hr ih1 ih2 =>
    intro c
    rw [sj_brk inner rest hine]
    rw [pscan_cons_succ, if_pos rfl]
    have hI : pscan (sj inner) (c + 1 + 1) = ((sj inner).length, c + 1 + 1) := ih1 (c + 1)
    rw [pscan_append_of (')' :: sj rest) (sj inner) (c + 1 + 1) (c + 1 + 1) hI]
    rw [pscan_cons_succ, if_neg (by decide : ¬ (')' : Char) = '('), if_pos rfl, ih2 c]
    simp
  | chain w0 ws rest hw0 hws hlast hro hr ih =>
    intro c
    have hwords : ∀ w ∈ w0 :: ws, wordTok w := by
      intro w hw
      rcases List.mem_cons.mp hw with h1 | h1
      · subst h1; exact letterWord_word _ hw0
      · exact hws w h1
    have hnp : ∀ ch ∈ sj (w0 :: ws), ch ≠ '(' ∧ ch ≠ ')' := by
      intro ch hch
      exact varspace_nonparen ch (sj_words_chars (w0 :: ws) hwords ch hch)
    have hW : ∀ c', pscan (sj (w0 :: ws)) (c' + 1) = ((sj (w0 :: ws)).length, c' + 1) :=
      pscan_nonparen _ hnp
    rcases hro with rfl | ⟨r, rfl⟩ | ⟨r, rfl⟩
    · rw [List.append_nil]
      exact hW c
    · rw [sj_append (tk "(") r (w0 :: ws) (by simp),
        sepFor, if_pos (by rw [show structuralTok (tk "(") = true from by decide]; simp),
        List.nil_append]
      rw [pscan_append_of (sj (tk "(" :: r)) (sj (w0 :: ws)) (c + 1) (c + 1) (hW c), ih c]
      simp
    · rw [sj_append (tk "\\") r (w0 :: ws) (by simp),
        sepFor, if_pos (by rw [show structuralTok (tk "\\") = true from by decide]; simp),
        List.nil_append]
      rw [pscan_append_of (sj (tk "\\" :: r)) (sj (w0 :: ws)) (c + 1) (c + 1) (hW c), ih c]
      simp

/-! ## Remaining structural helpers for outputs -/

theorem getLastD_append_right (A B : Toks) (hB : B ≠ []) (d : Tok) :
    (A ++ B).getLastD d = B.getLastD d := by
  rw [List.getLastD_eq_getLast?, List.getLastD_eq_getLast?, List.getLast?_append]
  cases hB' : B.getLast? with
  | none => exact absurd (List.getLast?_eq_none_iff.mp hB') hB
  | some c => rfl

theorem rstrip_last : ∀ l : List Char, ∀ c, (rstrip l).getLast? = some c → isWSCh c = false := by
  intro l
  induction l with
  | nil => intro c hc; simp [rstrip] at hc
  | cons a l ih =>
    intro c hc
    revert hc
    show (match rstrip l with
      | [] => if isWSCh a then [] else [a]
      | b :: r => a :: b :: r).getLast? = some c → isWSCh c = false
    cases hr : rstrip l with
    | nil =>
      by_cases ha : isWSCh a
      · rw [if_pos ha]
        intro hc; simp at hc
      · rw [if_neg ha]
        intro hc
        have : a = c := by simpa using hc
        subst this
        simpa using ha
    | cons b r =>
      intro hc
      apply ih c
      rw [hr]
      rw [List.getLast?_cons_cons] at hc
      exact hc

theorem rstrip_leading : ∀ l : List Char, rstrip l <+: l := by
  intro l
  induction l with
  | nil => exact List.prefix_refl []
  | cons a l ih =>
    show (match rstrip l with
      | [] => if isWSCh a then [] else [a]
      | b :: r => a :: b :: r) <+: a :: l
    cases hr : rstrip l with
    | nil =>
      by_cases ha : isWSCh a
      · rw [if_pos ha]; exact List.nil_prefix
      · rw [if_neg ha]
        exact ⟨l, rfl⟩
    | cons b r =>
      have hpre : b :: r <+: l := hr ▸ ih
      obtain ⟨tail, htail⟩ := hpre
      show a :: b :: r <+: a :: l
      exact ⟨tail, by rw [List.cons_append, htail]⟩

theorem splitSpaces_last :
    ∀ u : List Char, u ≠ [] → (∀ c, u.getLast? = some c → c ≠ ' ') →
      (splitSpaces u).getLastD [] ≠ [] := by
  intro u
  induction u with
  | nil => intro h _; exact absurd rfl h
  | cons b u' ih =>
    intro _ hlast
    cases u' with
    | nil =>
      have hb : b ≠ ' ' := hlast b (by simp)
      rw [splitSpaces, if_neg hb]
      show (match splitSpaces [] with
        | [] => [[b]]
        | w :: ws => (b :: w) :: ws).getLastD [] ≠ []
      simp [splitSpaces]
    | cons b2 u'' =>
      have hrec := ih (by simp) (fun c hc => hlast c (by rw [List.getLast?_cons_cons]; exact hc))
      by_cases hb : b = ' '
      · rw [splitSpaces, if_pos hb, List.getLastD_cons]
        exact hrec
      · rw [splitSpaces, if_neg hb]
        cases hs : splitSpaces (b2 :: u'') with
        | nil => exact absurd hs (splitSpaces_ne_nil _)
        | cons w ws =>
          rw [hs] at hrec
          cases ws with
          | nil => simp
          | cons y ys =>
            rw [List.getLastD_cons] at hrec ⊢
            rw [getLastD_indep ys y (b :: w) w]
            exact hrec

theorem chain_append (w0 : Tok) (ws rest : Toks) (hw0 : letterWord w0)
    (hws : ∀ w ∈ ws, wordTok w) (hlast : (w0 :: ws).getLastD [] ≠ [])
    (hr : Out rest) : Out ((w0 :: ws) ++ rest) := by
  cases hr with
  | nil => exact Out.chain w0 ws [] hw0 hws hlast (Or.inl rfl) Out.nil
  | lam nm body hnm hb hbne =>
    exact Out.chain w0 ws _ hw0 hws hlast (Or.inr (Or.inr ⟨nm :: body, rfl⟩))
      (Out.lam nm body hnm hb hbne)
  | brk inner rest' hi hine hr' =>
    exact Out.chain w0 ws _ hw0 hws hlast
      (Or.inr (Or.inl ⟨inner ++ tk ")" :: rest', by rw [List.cons_append]⟩))
      (Out.brk inner rest' hi hine hr')
  | chain w0' ws' rest' hw0' hws' hlast' hro' hr' =>
    rw [show (w0 :: ws) ++ ((w0' :: ws') ++ rest') = (w0 :: (ws ++ w0' :: ws')) ++ rest'
        by simp]
    refine Out.chain w0 (ws ++ w0' :: ws') rest' hw0 ?_ ?_ hro' hr'
    · intro w hw
      rcases List.mem_append.mp hw with h1 | h1
      · exact hws w h1
      · rcases List.mem_cons.mp h1 with h2 | h2
        · subst h2; exact letterWord_word _ hw0'
        · exact hws' w h2
    · rw [List.getLastD_cons, getLastD_append_right ws (w0' :: ws') (by simp) w0,
        getLastD_indep ws' w0' w0 []]
      exact hlast'

theorem splitSpaces_head_letter (c0 : Char) (hc0 : isAlphaCh c0 = true) (u : List Char)
    (hu : ∀ c ∈ u, isVarCh c = true ∨ c = ' ') :
    ∃ w0 ws', splitSpaces (c0 :: u) = w0 :: ws' ∧ letterWord w0 ∧ ∀ w ∈ ws', wordTok w := by
  have hc0sp : ¬ c0 = ' ' := (alpha_facts c0 hc0).2.2.1
  cases hs : splitSpaces u with
  | nil => exact absurd hs (splitSpaces_ne_nil u)
  | cons w ws =>
    refine ⟨c0 :: w, ws, ?_, ?_, ?_⟩
    · rw [splitSpaces, if_neg hc0sp, hs]
    · simp only [letterWord, Bool.and_eq_true]
      refine ⟨hc0, ?_⟩
      have := splitSpaces_words u hu w (by simp [hs])
      simpa [wordTok] using this
    · intro v hv
      exact splitSpaces_words u hu v (by simp [hs, hv])

/-- Every successful tokenization under `mode = None` yields a sequence of
the shape `Out`. -/
theorem parse_out (f : Nat) :
    ∀ s pos ts, parseRecF f s pos none = .ok ts → Out ts := by
  induction f with
  | zero =>
    intro s pos ts h
    exact absurd h (by rw [show parseRecF 0 s pos none = .error none from rfl]; simp)
  | succ f ih =>
    intro s pos ts h
    rw [parseRecF_succ] at h
    simp only [parseStep] at h
    split at h
    · simp only [Except.ok.injEq] at h
      subst h
      exact Out.nil
    · rename_i c0 srest hps
      split at h
      · exact ih _ _ _ h
      · rename_i hc0sp
        split at h
        · -- case 2: lambda
          rename_i hc0bs
          split at h
          · simp at h
          · rename_i nh nmr hnm
            split at h
            · simp at h
            · rename_i halpha
              split at h
              · simp at h
              · rename_i hlen
                have hword : letterWord (List.takeWhile isVarCh srest) := by
                  rw [hnm]
                  simp only [letterWord, Bool.and_eq_true]
                  refine ⟨not_not.mp halpha, ?_⟩
                  rw [List.all_eq_true]
                  intro x hx
                  exact List.mem_takeWhile_imp (hnm ▸ List.mem_cons_of_mem nh hx)
                split at h
                · -- dot branch
                  split at h
                  · simp at h
                  · rename_i hsp
                    split at h
                    · simp at h
                    · simp at h
                    · rename_i nt0 ntr hrec
                      have hout : Out (nt0 :: ntr) := ih _ _ _ hrec
                      split at h
                      · simp only [Except.ok.injEq] at h
                        subst h
                        exact Out.lam _ _ hword hout (by simp)
                      · simp only [Except.ok.injEq] at h
                        subst h
                        exact Out.lam _ _ hword
                          (Out.brk (nt0 :: ntr) [] hout (by simp) Out.nil) (by simp)
                · -- no-dot branch
                  split at h
                  · simp at h
                  · simp at h
                  · rename_i nt0 ntr hrec
                    have hout : Out (nt0 :: ntr) := ih _ _ _ hrec
                    simp only [Except.ok.injEq] at h
                    subst h
                    exact Out.lam _ _ hword hout (by simp)
        · rename_i hbs
          split at h
          · -- case 3: bracket
            rename_i hpar
            split at h
            · simp at h
            · rename_i hbal
              split at h
              · simp at h
              · rename_i hsz
                split at h
                · simp at h
                · simp at h
                · rename_i nt0 ntr hrec
                  have hin : Out (nt0 :: ntr) := ih _ _ _ hrec
                  split at h
                  · simp at h
                  · rename_i additional hafter
                    -- resolve the extraWrap brackets: truthy none = false
                    simp only [truthy, Bool.and_false, Bool.false_eq_true, if_false] at h
                    simp only [Except.ok.injEq] at h
                    subst h
                    have hadd : Out additional := by
                      revert hafter
                      split
                      · intro hafter; exact ih _ _ _ hafter
                      · intro hafter
                        simp only [Except.ok.injEq] at hafter
                        subst hafter
                        exact Out.nil
                    have hsh : ([] : Toks) ++ [tk "("] ++ (nt0 :: ntr) ++ [tk ")"]
                        ++ additional ++ ([] : Toks)
                        = (tk "(" :: (nt0 :: ntr)) ++ tk ")" :: additional := by simp
                    rw [hsh]
                    exact Out.brk (nt0 :: ntr) additional hin (by simp) hadd
          · rename_i hnpar
            split at h
            · -- case 4: application chain
              rename_i hvc
              split at h
              · simp at h
              · rename_i halpha0
                split at h
                · simp at h
                · rename_i additional hrec
                  have hadd : Out additional := ih _ _ _ hrec
                  simp only [truthy, Bool.false_eq_true, if_false] at h
                  simp only [Except.ok.injEq] at h
                  subst h
                  have hca : isAlphaCh c0 = true := not_not.mp halpha0
                  have htl : ∀ c ∈ List.takeWhile (fun c => isVarCh c || decide (c = ' ')) srest,
                      isVarCh c = true ∨ c = ' ' := by
                    intro c hc
                    have := List.mem_takeWhile_imp hc
                    simpa using this
                  have hstripr : pyStrip (c0 :: List.takeWhile (fun c => isVarCh c || decide (c = ' ')) srest)
                      = c0 :: rstrip (List.takeWhile (fun c => isVarCh c || decide (c = ' ')) srest) :=
                    pyStrip_cons_nonws _ _ ((alpha_facts c0 hca).2.1)
                  have hrsub : ∀ c ∈ rstrip (List.takeWhile (fun c => isVarCh c || decide (c = ' ')) srest),
                      isVarCh c = true ∨ c = ' ' := by
                    intro c hc
                    exact htl c ((rstrip_leading _).subset hc)
                  obtain ⟨w0, ws', hsplit, hw0, hws'⟩ :=
                    splitSpaces_head_letter c0 hca _ hrsub
                  have hlastss : (splitSpaces (c0 :: rstrip (List.takeWhile (fun c => isVarCh c || decide (c = ' ')) srest))).getLastD [] ≠ [] := by
                    apply splitSpaces_last _ (by simp)
                    intro c hc
                    cases hrs : rstrip (List.takeWhile (fun c => isVarCh c || decide (c = ' ')) srest) with
                    | nil =>
                      rw [hrs] at hc
                      have : c0 = c := by simpa using hc
                      subst this
                      exact (alpha_facts c0 hca).2.2.1
                    | cons b r =>
                      rw [hrs, List.getLast?_cons_cons] at hc
                      have hnws : isWSCh c = false := rstrip_last _ c (by rw [hrs]; exact hc)
                      intro hsp
                      subst hsp
                      revert hnws
                      decide
                  rw [hstripr, hsplit]
                  have hlast2 : (w0 :: ws').getLastD [] ≠ [] := by
                    rw [hsplit] at hlastss
                    exact hlastss
                  exact chain_append w0 ws' additional hw0 hws' hlast2 hadd
            · simp at h

/-! ## Re-parsing re-joined outputs: decompositions of the joined string -/

/-- After a lambda's bound name, the re-joined body region starts with an
optional single space, then a character that is neither a dot nor a space,
and is at least two characters long. -/
theorem sj_lam_tail (nm : Tok) (body : Toks) (hb : Out body) (hbne : body ≠ [])
    (hnmst : structuralTok nm = false) :
    ∃ sp y0 yr, sj (nm :: body) = nm ++ (sp ++ y0 :: yr)
      ∧ sj body = y0 :: yr
      ∧ (sp = [' '] ∨ (sp = [] ∧ isVarCh y0 = false))
      ∧ y0 ≠ '.' ∧ y0 ≠ ' '
      ∧ 1 ≤ sp.length + yr.length := by
  rcases out_cases body hb with rfl | ⟨nm2, body2, rfl, hnm2, hb2, hbne2⟩
    | ⟨inner, rest, rfl, hi, hine, hr⟩ | ⟨w0, ws, rest, rfl, hw0, hws, hlast, hro, hr⟩
  · exact absurd rfl hbne
  · obtain ⟨c2, cs2, rfl⟩ : ∃ c2 cs2, nm2 = c2 :: cs2 := by
      cases nm2 with
      | nil => exact absurd hnm2 (by simp [letterWord])
      | cons a b => exact ⟨a, b, rfl⟩
    obtain ⟨z, hz⟩ := sj_cons_ex (c2 :: cs2) body2
    refine ⟨[], '\\', sj ((c2 :: cs2) :: body2), ?_, sj_lam (c2 :: cs2) body2,
      Or.inr ⟨rfl, by decide⟩, by decide, by decide, ?_⟩
    · rw [sj_cons2, sepFor,
        if_pos (by rw [show structuralTok (tk "\\") = true from by decide]; simp), sj_lam]
    · rw [hz]
      simp only [List.length_nil, List.length_append, List.length_cons]
      omega
  · have hbrk2 : sj (tk "(" :: (inner ++ tk ")" :: rest))
        = '(' :: (sj inner ++ ')' :: sj rest) := sj_brk inner rest hine
    refine ⟨[], '(', sj inner ++ ')' :: sj rest, ?_, sj_brk inner rest hine,
      Or.inr ⟨rfl, by decide⟩, by decide, by decide, ?_⟩
    · show sj (nm :: tk "(" :: (inner ++ tk ")" :: rest))
        = nm ++ ([] ++ '(' :: (sj inner ++ ')' :: sj rest))
      rw [sj_cons2, sepFor,
        if_pos (by rw [show structuralTok (tk "(") = true from by decide]; simp), hbrk2]
    · simp only [List.length_nil, List.length_append, List.length_cons]
      omega
  · obtain ⟨c0, cs0, rfl⟩ : ∃ c0 cs0, w0 = c0 :: cs0 := by
      cases w0 with
      | nil => exact absurd hw0 (by simp [letterWord])
      | cons a b => exact ⟨a, b, rfl⟩
    have hca : isAlphaCh c0 = true := by
      simp only [letterWord, Bool.and_eq_true] at hw0
      exact hw0.1
    have hw0st : structuralTok (c0 :: cs0) = false :=
      wordTok_not_structural _ (letterWord_word _ hw0)
    obtain ⟨z, hz⟩ := sj_cons_ex (c0 :: cs0) (ws ++ rest)
    have hbody : ((c0 :: cs0) :: ws) ++ rest = (c0 :: cs0) :: (ws ++ rest) := by
      rw [List.cons_append]
    refine ⟨[' '], c0, cs0 ++ z, ?_, ?_, Or.inl rfl,
      (alpha_facts c0 hca).2.2.2.2.2.2, (alpha_facts c0 hca).2.2.1, ?_⟩
    · rw [hbody, sj_cons2, sepFor, if_neg (by simp [hnmst, hw0st]), hz]
      simp
    · rw [hbody, hz]
      simp
    · simp only [List.length_cons, List.length_append, List.length_nil]
      omega

/-- Evaluation of one tokenizer step on a re-joined lambda output: the
leading backslash is recognised, the bound name is re-read, the optional
space region is skipped, and the recursion on the body is wrapped back
into the same token sequence (no dot appears in a re-joined string, so the
no-dot path is taken). -/
theorem parseStep_lam (rec : List Char → Nat → Option String → PRes)
    (nh : Char) (nmtl sp : List Char) (y0 : Char) (yr : List Char) (pos : Nat)
    (b0 : Tok) (btl : Toks)
    (hnh : isAlphaCh nh = true)
    (hvar : ∀ c ∈ nmtl, isVarCh c = true)
    (hsp : sp = [' '] ∨ (sp = [] ∧ isVarCh y0 = false))
    (hdot : y0 ≠ '.') (hspace : y0 ≠ ' ')
    (hlen1 : 1 ≤ sp.length + yr.length)
    (hstrip : pyStrip ('\\' :: ((nh :: nmtl) ++ (sp ++ y0 :: yr)))
      = '\\' :: ((nh :: nmtl) ++ (sp ++ y0 :: yr)))
    (hrec : ∀ p, rec (y0 :: yr) p none = .ok (b0 :: btl)) :
    parseStep rec ('\\' :: ((nh :: nmtl) ++ (sp ++ y0 :: yr))) pos none
      = .ok (tk "\\" :: (nh :: nmtl) :: (b0 :: btl)) := by
  have hvartl : ∀ c ∈ (nh :: nmtl), isVarCh c = true := by
    intro c hc
    rcases List.mem_cons.mp hc with rfl | hc2
    · exact (alpha_facts _ hnh).1
    · exact hvar c hc2
  have htw : List.takeWhile isVarCh ((nh :: nmtl) ++ (sp ++ y0 :: yr)) = nh :: nmtl := by
    rw [takeWhile_append_all isVarCh (sp ++ y0 :: yr) (nh :: nmtl) hvartl]
    rcases hsp with rfl | ⟨rfl, hy0⟩
    · rw [show ([' '] ++ y0 :: yr) = ' ' :: (y0 :: yr) from rfl, List.takeWhile_cons,
        if_neg (by decide)]
      simp
    · rw [List.nil_append, List.takeWhile_cons, if_neg (by simp [hy0])]
      simp
  have hsptw : List.takeWhile (fun c => decide (c = ' ')) (sp ++ y0 :: yr) = sp := by
    rcases hsp with rfl | ⟨rfl, _⟩
    · rw [show ([' '] ++ y0 :: yr) = ' ' :: (y0 :: yr) from rfl, List.takeWhile_cons,
        if_pos (by decide), List.takeWhile_cons, if_neg (by simp [hspace])]
    · rw [List.nil_append, List.takeWhile_cons, if_neg (by simp [hspace])]
  have hdropA : ('\\' :: ((nh :: nmtl) ++ (sp ++ y0 :: yr))).drop (1 + (nh :: nmtl).length)
      = sp ++ y0 :: yr := by
    rw [show 1 + (nh :: nmtl).length = (nh :: nmtl).length + 1 by omega, List.drop_succ_cons]
    exact List.drop_left _ _
  simp only [parseStep, hstrip]
  rw [if_neg (show ¬ (('\\' : Char) = ' ') by decide), if_pos trivial]
  simp only [htw]
  rw [if_neg (not_not.mpr hnh)]
  rw [if_neg (show ¬ (('\\' :: ((nh :: nmtl) ++ (sp ++ y0 :: yr))).length
      ≤ 1 + (nh :: nmtl).length + 1) by
    simp only [List.length_cons, List.length_append]
    omega)]
  simp only [hdropA, hsptw, List.drop_left, List.head?_cons]
  split
  · rename_i heq
    exact absurd (Option.some.inj heq) hdot
  · simp only [hrec]
    simp

/-- Evaluation of one tokenizer step on a re-joined bracket-group output:
the scan finds the matching closing parenthesis right after the joined
interior, the interior re-parses to the original nested tokens, the
remainder re-parses to the original trailing tokens, and under mode `None`
no extra wrapping brackets are added. -/
theorem parseStep_brk (rec : List Char → Nat → Option String → PRes)
    (I R : List Char) (pos : Nat) (inner rest : Toks)
    (hinner : inner ≠ [])
    (hstrip : pyStrip ('(' :: (I ++ ')' :: R)) = '(' :: (I ++ ')' :: R))
    (hIscan : pscan I 1 = (I.length, 1))
    (hIne : 1 ≤ I.length)
    (hrecI : ∀ p, rec I p none = .ok inner)
    (hR : (R = [] ∧ rest = []) ∨ (1 ≤ R.length ∧ ∀ p, rec R p none = .ok rest)) :
    parseStep rec ('(' :: (I ++ ')' :: R)) pos none
      = .ok (tk "(" :: inner ++ tk ")" :: rest) := by
  obtain ⟨i0, itl, rfl⟩ : ∃ i0 itl, inner = i0 :: itl := by
    cases inner with
    | nil => exact absurd rfl hinner
    | cons a b => exact ⟨a, b, rfl⟩
  have hscan : pscan (I ++ ')' :: R) 1 = (I.length + 1, 0) := by
    rw [pscan_append_of (')' :: R) I 1 1 hIscan, pscan_cons_succ,
      if_neg (show ¬ ((')' : Char) = '(') by decide), if_pos rfl, pscan_zero]
  simp only [parseStep, hstrip]
  rw [if_neg (show ¬ (('(' : Char) = ' ') by decide),
    if_neg (show ¬ (('(' : Char) = '\\') by decide),
    if_pos trivial]
  rw [hscan]
  rw [if_neg (show ¬ (((I.length + 1, 0) : Nat × Nat).2 ≠ 0) by simp)]
  rw [if_neg (show ¬ (1 + ((I.length + 1, 0) : Nat × Nat).1 ≤ 2) by
    show ¬ (1 + (I.length + 1) ≤ 2)
    omega)]
  rw [show 1 + ((I.length + 1, 0) : Nat × Nat).1 - 2 = I.length by
    show 1 + (I.length + 1) - 2 = I.length
    omega]
  rw [List.take_left I (')' :: R)]
  simp only [hrecI]
  simp only [truthy, Bool.and_false, Bool.false_eq_true, if_false]
  rcases hR with ⟨rfl, rfl⟩ | ⟨hRlen, hrecR⟩
  · rw [if_neg (show ¬ (1 + ((I.length + 1, 0) : Nat × Nat).1
        < ('(' :: (I ++ ')' :: ([] : List Char))).length) by
      rw [List.length_cons, List.length_append, List.length_cons, List.length_nil]
      show ¬ (1 + (I.length + 1) < I.length + (0 + 1) + 1)
      omega)]
    simp
  · rw [if_pos (show 1 + ((I.length + 1, 0) : Nat × Nat).1
        < ('(' :: (I ++ ')' :: R)).length by
      rw [List.length_cons, List.length_append, List.length_cons]
      show 1 + (I.length + 1) < I.length + (R.length + 1) + 1
      omega)]
    have hdropR : ('(' :: (I ++ ')' :: R)).drop (1 + ((I.length + 1, 0) : Nat × Nat).1)
        = R := by
      show ('(' :: (I ++ ')' :: R)).drop (1 + (I.length + 1)) = R
      rw [show 1 + (I.length + 1) = I.length + 1 + 1 by omega, List.drop_succ_cons,
        show I ++ ')' :: R = (I ++ [')']) ++ R by simp,
        show I.length + 1 = (I ++ [')']).length by simp]
      exact List.drop_left _ _
    rw [hdropR]
    simp only [hrecR]
    simp

/-- Evaluation of one tokenizer step on a re-joined identifier-run output:
the maximal letters-digits-spaces run is consumed, split back into the
original word tokens (no associativity rewriting under mode `None`), and
the remainder re-parses to the original trailing tokens. -/
theorem parseStep_chain (rec : List Char → Nat → Option String → PRes)
    (c0 : Char) (wtl R : List Char) (pos : Nat) (cts rest : Toks)
    (hca : isAlphaCh c0 = true)
    (hstrip : pyStrip (c0 :: (wtl ++ R)) = c0 :: (wtl ++ R))
    (hwtl : ∀ c ∈ wtl, isVarCh c = true ∨ c = ' ')
    (hRstop : R = [] ∨ (∃ r, R = '(' :: r) ∨ (∃ r, R = '\\' :: r))
    (hsplit : splitSpaces (pyStrip (c0 :: wtl)) = cts)
    (hrecR : ∀ p, rec R p none = .ok rest) :
    parseStep rec (c0 :: (wtl ++ R)) pos none = .ok (cts ++ rest) := by
  have hfacts := alpha_facts c0 hca
  have htw : List.takeWhile (fun c => isVarCh c || decide (c = ' ')) (wtl ++ R) = wtl := by
    rw [takeWhile_append_all _ R wtl (by
      intro c hc
      rcases hwtl c hc with h1 | rfl
      · simp [h1]
      · simp)]
    rcases hRstop with rfl | ⟨r, rfl⟩ | ⟨r, rfl⟩
    · simp
    · rw [List.takeWhile_cons, if_neg (by decide)]
      simp
    · rw [List.takeWhile_cons, if_neg (by decide)]
      simp
  have hdrop : (c0 :: (wtl ++ R)).drop ((c0 :: wtl).length) = R := by
    rw [show (c0 :: wtl).length = wtl.length + 1 from rfl, List.drop_succ_cons]
    exact List.drop_left _ _
  simp only [parseStep, hstrip]
  rw [if_neg hfacts.2.2.1, if_neg hfacts.2.2.2.1, if_neg hfacts.2.2.2.2.1,
    if_pos hfacts.1, if_neg (not_not.mpr hca)]
  simp only [htw]
  rw [hdrop, hsplit]
  simp only [truthy, Bool.false_eq_true, if_false]
  simp only [hrecR]

/-- Re-parsing a re-joined output under `mode = None` returns exactly the
original token sequence, for any fuel beyond the string length and any
starting position. -/
theorem reparse (t : Toks) (h : Out t) :
    ∀ f pos, (sj t).length < f → parseRecF f (sj t) pos none = .ok t := by
  induction h with
  | nil =>
    intro f pos hf
    cases f with
    | zero => exact absurd hf (Nat.not_lt_zero _)
    | succ f =>
      rw [parseRecF_succ]
      rfl
  | lam nm body hnm hb hbne ih =>
    intro f pos hf
    have ht : Out (tk "\\" :: nm :: body) := Out.lam nm body hnm hb hbne
    cases f with
    | zero => exact absurd hf (Nat.not_lt_zero _)
    | succ f =>
      rw [parseRecF_succ]
      have hword : wordTok nm := letterWord_word nm hnm
      have hst : structuralTok nm = false := wordTok_not_structural nm hword
      obtain ⟨sp, y0, yr, hdec, hsjb, hsp, hdot, hspace, hlen1⟩ :=
        sj_lam_tail nm body hb hbne hst
      obtain ⟨b0, btl, rfl⟩ : ∃ b0 btl, body = b0 :: btl := by
        cases body with
        | nil => exact absurd rfl hbne
        | cons a b => exact ⟨a, b, rfl⟩
      obtain ⟨nh, nmtl, rfl⟩ : ∃ nh nmtl, nm = nh :: nmtl := by
        cases nm with
        | nil => exact absurd hnm (by simp [letterWord])
        | cons a b => exact ⟨a, b, rfl⟩
      have hnh : isAlphaCh nh = true := by
        simp only [letterWord, Bool.and_eq_true] at hnm
        exact hnm.1
      have hvar : ∀ c ∈ nmtl, isVarCh c = true := by
        simp only [letterWord, Bool.and_eq_true, List.all_eq_true] at hnm
        exact hnm.2
      have hsjt : sj (tk "\\" :: (nh :: nmtl) :: (b0 :: btl))
          = '\\' :: ((nh :: nmtl) ++ (sp ++ y0 :: yr)) := by
        rw [sj_lam, hdec]
      have hlf : (y0 :: yr).length < f := by
        have h0 := hf
        rw [hsjt] at h0
        simp only [List.length_cons, List.length_append] at h0 ⊢
        omega
      rw [hsjt]
      refine parseStep_lam (parseRecF f) nh nmtl sp y0 yr pos b0 btl hnh hvar hsp hdot
        hspace hlen1 ?_ ?_
      · rw [← hsjt]
        exact sj_strip_id _ ht
      · intro p
        rw [← hsjb]
        refine ih f p ?_
        rw [hsjb]
        exact hlf
  | brk inner rest hi hine hr ih1 ih2 =>
    intro f pos hf
    have ht : Out (tk "(" :: inner ++ tk ")" :: rest) := Out.brk inner rest hi hine hr
    cases f with
    | zero => exact absurd hf (Nat.not_lt_zero _)
    | succ f =>
      rw [parseRecF_succ]
      have hsjt : sj (tk "(" :: inner ++ tk ")" :: rest)
          = '(' :: (sj inner ++ ')' :: sj rest) := sj_brk inner rest hine
      have hIne : 1 ≤ (sj inner).length := by
        obtain ⟨c, r, hcr, _⟩ := sj_head_shape inner hi hine
        rw [hcr]
        simp
      have hlI : (sj inner).length < f := by
        have h0 := hf
        rw [hsjt] at h0
        simp only [List.length_cons, List.length_append] at h0
        omega
      have hlR : (sj rest).length < f := by
        have h0 := hf
        rw [hsjt] at h0
        simp only [List.length_cons, List.length_append] at h0
        omega
      rw [hsjt]
      refine parseStep_brk (parseRecF f) (sj inner) (sj rest) pos inner rest hine ?_
        (sj_pscan inner hi 0) hIne ?_ ?_
      · rw [← hsjt]
        exact sj_strip_id _ ht
      · intro p
        exact ih1 f p hlI
      · by_cases hrne : rest = []
        · subst hrne
          exact Or.inl ⟨rfl, rfl⟩
        · refine Or.inr ⟨?_, ?_⟩
          · obtain ⟨c, r, hcr, _⟩ := sj_head_shape rest hr hrne
            rw [hcr]
            simp
          · intro p
            exact ih2 f p hlR
  | chain w0 ws rest hw0 hws hlast hro hr ih =>
    intro f pos hf
    have ht : Out ((w0 :: ws) ++ rest) := Out.chain w0 ws rest hw0 hws hlast hro hr
    cases f with
    | zero => exact absurd hf (Nat.not_lt_zero _)
    | succ f =>
      rw [parseRecF_succ]
      have hwords : ∀ w ∈ w0 :: ws, wordTok w := by
        intro w hw
        rcases List.mem_cons.mp hw with rfl | h1
        · exact letterWord_word _ hw0
        · exact hws w h1
      have hWsep : sj ((w0 :: ws) ++ rest) = sj (w0 :: ws) ++ sj rest := by
        rcases hro with rfl | ⟨r, rfl⟩ | ⟨r, rfl⟩
        · simp [sj_nil]
        · rw [sj_append (tk "(") r (w0 :: ws) (by simp), sepFor,
            if_pos (by rw [show structuralTok (tk "(") = true from by decide]; simp)]
          simp
        · rw [sj_append (tk "\\") r (w0 :: ws) (by simp), sepFor,
            if_pos (by rw [show structuralTok (tk "\\") = true from by decide]; simp)]
          simp
      obtain ⟨c0, cs0, rfl⟩ : ∃ c0 cs0, w0 = c0 :: cs0 := by
        cases w0 with
        | nil => exact absurd hw0 (by simp [letterWord])
        | cons a b => exact ⟨a, b, rfl⟩
      have hca : isAlphaCh c0 = true := by
        simp only [letterWord, Bool.and_eq_true] at hw0
        exact hw0.1
      obtain ⟨z, hz⟩ := sj_cons_ex (c0 :: cs0) ws
      have hsjt : sj (((c0 :: cs0) :: ws) ++ rest) = c0 :: ((cs0 ++ z) ++ sj rest) := by
        rw [hWsep, hz]
        simp
      have hWstrip : pyStrip (sj ((c0 :: cs0) :: ws)) = sj ((c0 :: cs0) :: ws) := by
        refine pyStrip_id_of _ ?_ ?_
        · intro c hc
          rw [hz, show (c0 :: cs0) ++ z = c0 :: (cs0 ++ z) by simp] at hc
          have hcc : c0 = c := by simpa using hc
          rw [← hcc]
          exact (alpha_facts _ hca).2.1
        · intro c hc
          obtain ⟨cl, hcl, hvar⟩ := sj_words_last ((c0 :: cs0) :: ws) hwords (by simp) hlast
          rw [hcl] at hc
          have hcc : cl = c := by simpa using hc
          rw [← hcc]
          exact var_not_ws _ hvar
      have hsplit : splitSpaces (pyStrip (c0 :: (cs0 ++ z))) = (c0 :: cs0) :: ws := by
        rw [show c0 :: (cs0 ++ z) = (c0 :: cs0) ++ z by simp, ← hz, hWstrip,
          sj_words_split ((c0 :: cs0) :: ws) hwords (by simp)]
      have hRstop : sj rest = [] ∨ (∃ r, sj rest = '(' :: r) ∨ (∃ r, sj rest = '\\' :: r) := by
        rcases hro with rfl | ⟨r, rfl⟩ | ⟨r, rfl⟩
        · exact Or.inl rfl
        · exact Or.inr (Or.inl ⟨sj r, sj_open_cons r⟩)
        · exact Or.inr (Or.inr ⟨sj r, by rw [sj_cons_structural _ _ (by decide)]; rfl⟩)
      have hwtl : ∀ c ∈ cs0 ++ z, isVarCh c = true ∨ c = ' ' := by
        intro c hc
        have hmem : c ∈ sj ((c0 :: cs0) :: ws) := by
          rw [hz, show (c0 :: cs0) ++ z = c0 :: (cs0 ++ z) by simp]
          exact List.mem_cons_of_mem c0 hc
        exact sj_words_chars ((c0 :: cs0) :: ws) hwords c hmem
      have hlR : (sj rest).length < f := by
        have h0 := hf
        rw [hsjt] at h0
        simp only [List.length_cons, List.length_append] at h0 ⊢
        omega
      rw [hsjt]
      refine parseStep_chain (parseRecF f) c0 (cs0 ++ z) (sj rest) pos ((c0 :: cs0) :: ws)
        rest hca ?_ hwtl hRstop hsplit ?_
      · rw [← hsjt]
        exact sj_strip_id _ ht
      · intro p
        exact ih f p hlR

/-! # The claims -/

/-- C1: tokenizing the input `"\x.\y (x y b c)"` with association mode
`None` succeeds and returns exactly the token sequence
`['\\','x','(','\\','y','(','x','y','b','c',')',')']`: one parenthesis
pair is inserted around the dot body `"\y (x y b c)"` (its token sequence
does not begin with a bracket spanning the whole body), and no parentheses
other than that pair and the input's own bracket group appear. -/
theorem C1_dot_body_wrapping :
    parse_tokens (tk "\\x.\\y (x y b c)") none =
      .ok [tk "\\", tk "x", tk "(", tk "\\", tk "y", tk "(",
           tk "x", tk "y", tk "b", tk "c", tk ")", tk ")"] := by decide

/-- C2 counterexample: the tree built from `['\\','x','(','y',')']` does
not have a two-child root — its root has four children. -/
theorem C2_counterexample :
    ¬ ((build_parse_tree_rec [tk "\\", tk "x", tk "(", tk "y", tk ")"]).children.length
      = 2) := by decide

/-- C2 amended: the root built from `['\\','x','(','y',')']` has exactly
four children, in order: the combined `\x` leaf, then the bracket group
flattened into three siblings — a `(` leaf, the interior subtree (labelled
by the `_`-joined interior, here `y`, carrying the interior's children),
and a `)` leaf. -/
theorem C2_root_children :
    (build_parse_tree_rec [tk "\\", tk "x", tk "(", tk "y", tk ")"]).children =
      [Node.mk [tk "\\", tk "x"] [],
       Node.mk [tk "("] [],
       Node.mk [tk "y"] [Node.mk [tk "y"] []],
       Node.mk [tk ")"] []] := by rfl

/-- C3 counterexample: on the input `"(a)(b)"` the unrecognized (truthy)
mode `"asdf"` produces a different result from mode `None`, so an
unrecognized mode does not behave like `None`. -/
theorem C3_counterexample :
    parse_tokens (tk "(a)(b)") (some "asdf") ≠ parse_tokens (tk "(a)(b)") none := by
  decide

/-- C3 amended: the tokenizer's result depends on the association mode only
through its class — `None` and `""` behave alike, `"left"` and `"right"`
are the recognized modes, and all other (truthy unrecognized) modes behave
alike among themselves; two modes of the same class give identical results
on every input. -/
theorem C3_mode_class (s : List Char) (a b : Option String) (h : mkind a = mkind b) :
    parse_tokens s a = parse_tokens s b :=
  parseRecF_mode_irrel (s.length + 1) s 0 a b h

/-- C3 witness: two distinct unrecognized modes agree on `"(a)(b)"`. -/
theorem C3_mode_class_witness :
    mkind (some "asdf") = mkind (some "zzz") ∧
      parse_tokens (tk "(a)(b)") (some "asdf")
        = parse_tokens (tk "(a)(b)") (some "zzz") :=
  ⟨by decide, C3_mode_class (tk "(a)(b)") (some "asdf") (some "zzz") (by decide)⟩

/-- C4 counterexample: the input `"\x y"` is accepted with tokens
`['\\','x','y']`; it is not rejected. -/
theorem C4_counterexample :
    parse_tokens (tk "\\x y") none = .ok [tk "\\", tk "x", tk "y"] := by decide

/-- C4 amended: `"\x y"` tokenizes successfully to `['\\','x','y']`; the
"No expression found after variable." failure instead arises when at most
one character follows the bound name, e.g. on `"\x"`, where it is reported
at position 2. -/
theorem C4_lambda_space_accepted :
    parse_tokens (tk "\\x y") none = .ok [tk "\\", tk "x", tk "y"] ∧
      parse_tokens (tk "\\x") none =
        .error (some ⟨"No expression found after variable.", 2⟩) := by decide

/-- C5 counterexample: the input `"(x)"`, whose bracket interior is one
character (at most 2), is accepted — it does not fail with "Missing tokens
between brackets.". -/
theorem C5_counterexample :
    parse_tokens (tk "(x)") none = .ok [tk "(", tk "x", tk ")"] := by decide

/-- C5 amended: the "Missing tokens between brackets." failure triggers
exactly when the closing parenthesis immediately follows the opening one:
every input beginning `"()"` fails with it at position 1, while a
one-character interior such as `"(x)"` is accepted. -/
theorem C5_empty_group_bound :
    (∀ rest : List Char, parse_tokens ('(' :: ')' :: rest) none =
        .error (some ⟨"Missing tokens between brackets.", 1⟩)) ∧
      parse_tokens (tk "(x)") none = .ok [tk "(", tk "x", tk ")"] :=
  ⟨parse_empty_group, by decide⟩

/-- C6: on the input `" *"` the failure is reported at position 1 although
the offending `'*'` is the second character (1-based position 2) of the
original input: the leading `strip` removes the space without advancing
`pos`, so reported offsets refer to the trimmed string, not the original
untrimmed input. -/
theorem C6_leading_ws_offset :
    parse_tokens (tk " *") none = .error (some ⟨"Unexpected token '*'", 1⟩) ∧
      tk " *" = [' ', '*'] := by decide

/-- C7 counterexample: `"a b c"` under mode `"left"` is accepted with
tokens `['(','(','a','b',')','c',')']`, but re-joining that sequence and
re-tokenizing under the same mode does not return the same sequence (the
associativity wrapping is applied a second time). -/
theorem C7_counterexample :
    parse_tokens (tk "a b c") (some "left") =
        .ok [tk "(", tk "(", tk "a", tk "b", tk ")", tk "c", tk ")"] ∧
      parse_tokens (sj [tk "(", tk "(", tk "a", tk "b", tk ")", tk "c", tk ")"])
          (some "left")
        ≠ .ok [tk "(", tk "(", tk "a", tk "b", tk ")", tk "c", tk ")"] := by decide

/-- C7 amended: under mode `None` tokenization is stable — whenever
`parse_tokens s None` succeeds with tokens `ts`, re-joining `ts` into a
single string (one space exactly between two adjacent identifier tokens)
and re-tokenizing under mode `None` succeeds with exactly `ts` again. -/
theorem C7_roundtrip (s : List Char) (ts : Toks)
    (h : parse_tokens s none = .ok ts) :
    parse_tokens (sj ts) none = .ok ts := by
  have hout : Out ts := parse_out (s.length + 1) s 0 ts h
  exact reparse ts hout ((sj ts).length + 1) 0 (Nat.lt_succ_self _)

/-- C7 witness: the round trip on the tokens of `"\x.\y (x y b c)"`. -/
theorem C7_roundtrip_witness :
    parse_tokens (sj [tk "\\", tk "x", tk "(", tk "\\", tk "y", tk "(",
        tk "x", tk "y", tk "b", tk "c", tk ")", tk ")"]) none =
      .ok [tk "\\", tk "x", tk "(", tk "\\", tk "y", tk "(",
        tk "x", tk "y", tk "b", tk "c", tk ")", tk ")"] :=
  C7_roundtrip (tk "\\x.\\y (x y b c)") _ (by decide)

/-- C8 counterexample: `add_associativity ["("] "left"` returns `["("]`
unchanged (length-1 base case), whose parenthesis tokens are not balanced,
so the claim fails for sequences containing parenthesis tokens. -/
theorem C8_counterexample :
    balancedToks (add_associativity [tk "("] "left") = false := by decide

/-- C8 amended: for every sequence of non-parenthesis tokens and each of
the modes `"left"` and `"right"`, the resolver's result has balanced
parenthesis tokens and its non-parenthesis tokens are exactly the input
sequence in order (hence equal as multisets). -/
theorem C8_balance (s : Toks) (m : String) (hm : m = "left" ∨ m = "right")
    (hnp : ∀ t ∈ s, nonParenTok t) :
    balancedToks (add_associativity s m) = true ∧
      (add_associativity s m).filter nonParenTok = s := by
  obtain ⟨hb, hf⟩ := assoc_balance_core s.length s m (le_refl _) hm hnp
  have hb0 := hb 0
  exact ⟨by simp [balancedToks, hb0], hf⟩

/-- C8 witness: balance and token preservation on `['a','b','c']` with
mode `"left"`. -/
theorem C8_balance_witness :
    balancedToks (add_associativity [tk "a", tk "b", tk "c"] "left") = true ∧
      (add_associativity [tk "a", tk "b", tk "c"] "left").filter nonParenTok
        = [tk "a", tk "b", tk "c"] :=
  C8_balance [tk "a", tk "b", tk "c"] "left" (Or.inl rfl) (by decide)

/-- C9: `add_associativity (['a','b','c'], "left")` returns exactly
`['(','(','a','b',')','c',')']`, with `"right"` exactly
`['(','a','(','b','c',')',')']`, and every sequence of length 0 or 1 is
returned unchanged for every mode. -/
theorem C9_concrete_assoc :
    add_associativity [tk "a", tk "b", tk "c"] "left" =
        [tk "(", tk "(", tk "a", tk "b", tk ")", tk "c", tk ")"] ∧
      add_associativity [tk "a", tk "b", tk "c"] "right" =
        [tk "(", tk "a", tk "(", tk "b", tk "c", tk ")", tk ")"] ∧
      (∀ ty : String, add_associativity [] ty = []) ∧
      (∀ (t : Tok) (ty : String), add_associativity [t] ty = [t]) :=
  ⟨by decide, by decide, fun ty => add_assoc_short [] ty (by decide),
    fun t ty => add_assoc_short [t] ty (by simp)⟩

/-- C10: a bracket group whose interior is only whitespace (at least one
character) fails silently: the nested call returns the empty token list,
which the caller treats as failure, and no diagnostic is produced. -/
theorem C10_ws_interior_silent (ws : List Char) (hne : ws ≠ [])
    (hws : ∀ c ∈ ws, isWSCh c) :
    parse_tokens ('(' :: ws ++ [')']) none = .error none :=
  parse_ws_group ws hne hws

/-- C10 witness: `"(   )"` (three-character whitespace interior) fails
silently. -/
theorem C10_ws_interior_silent_witness :
    parse_tokens ('(' :: [' ', ' ', ' '] ++ [')']) none = .error none :=
  C10_ws_interior_silent [' ', ' ', ' '] (by decide) (by decide)
